import Mathlib

/-!
Verification of the reactive context and lifecycle scheduling engine of
ng-effects (src/libs/ng-effects/src/lib/connect.ts and
src/libs/ng-effects/src/lib/internals/run-effects.ts), against its
natural-language specification.

The embedding is shallow: JS objects are identified by numeric ids, JS Maps
and Sets become insertion-ordered association lists (a Map keyed by object
identity preserves insertion order, and a Set deduplicates), and the
module-level mutable bindings of connect.ts become fields of explicit state
records threaded through the translated functions.
-/

namespace NgEffects

/-- The lifecycle phases emitted on a host's scheduler subject.  The numeric
`LifecycleHook` enum lives in interfaces.ts, which is not part of the
sources; the constructors here are exactly the members used by connect.ts. -/
inductive Phase
  | OnChanges
  | OnInit
  | DoCheck
  | AfterViewInit
  | AfterViewChecked
  | WhenRendered
  | OnDestroy
deriving DecidableEq, Repr

/-- Errors thrown by connect.ts and run-effects.ts.  The spec names
`invalidExecutionContext` as NoActiveContextError, `injectorNotFound` as
InjectorUnavailableError, and `badReturnType` as InvalidEffectReturnError.
`typeError` is the JS builtin TypeError, raised by the `in` operator in
`unsubscribe` when its right operand is a truthy primitive. -/
inductive NgError
  | invalidExecutionContext
  | injectorNotFound
  | badReturnType
  | typeError
deriving DecidableEq, Repr

/-- The shapes of a JS value returned by an effect callback, at the
granularity distinguished by `unsubscribe` in connect.ts: a function, a
truthy object exposing an `unsubscribe` member, a truthy object without
one, a truthy primitive such as a nonzero number or a nonempty string, a
`null`, or `undefined` (also covering the remaining falsy values, which
behave like `null` everywhere below: `teardown && ...` short-circuits). -/
inductive Teardown
  | func (id : Nat)
  | sub (id : Nat)
  | obj (id : Nat)
  | value (v : Nat)
  | nullv
  | undef
deriving DecidableEq, Repr

/-- The release actions `unsubscribe` in connect.ts can perform. -/
inductive ReleaseCall
  | callFunc (id : Nat)
  | callUnsub (id : Nat)
deriving DecidableEq, Repr

/-- connect.ts `unsubscribe(teardown)`: a function is invoked; otherwise,
for a truthy `teardown`, `"unsubscribe" in teardown` is evaluated — on an
object it tests membership (invoking the member if present, doing nothing
otherwise), but on a truthy primitive the `in` operator itself throws a
TypeError; a falsy value short-circuits `teardown && ...` and is silently
ignored. -/
def unsubscribe : Teardown → Except NgError (Option ReleaseCall)
  | .func id => .ok (some (.callFunc id))
  | .sub id => .ok (some (.callUnsub id))
  | .obj _ => .ok none
  | .value _ => .error .typeError
  | .nullv => .ok none
  | .undef => .ok none

/-- Effect options as used by connect.ts `runEffect` (`options.watch`). -/
structure EffectOptions where
  watch : Bool
deriving DecidableEq, Repr

/-- JS `Map.prototype.set` on an insertion-ordered association list: an
existing key keeps its position, a new key is appended. -/
def mapSet (k : Nat) (v : α) : List (Nat × α) → List (Nat × α)
  | [] => [(k, v)]
  | (k', v') :: rest => if k' = k then (k, v) :: rest else (k', v') :: mapSet k v rest

/-- JS `Map.prototype.get`. -/
def mapGet (k : Nat) : List (Nat × α) → Option α
  | [] => none
  | (k', v') :: rest => if k' = k then some v' else mapGet k rest

/-- JS `Map.prototype.delete`. -/
def mapDelete (k : Nat) : List (Nat × α) → List (Nat × α)
  | [] => []
  | (k', v') :: rest => if k' = k then rest else (k', v') :: mapDelete k rest

/-- JS `Set.prototype.add` on an insertion-ordered list. -/
def setAdd (x : Nat) (l : List Nat) : List Nat :=
  if x ∈ l then l else l ++ [x]

/-- connect.ts `addDeps(object, key)`: `getDeps` materialises an empty key
set for a previously unseen object, then the key is added to that set. -/
def addDeps (obj key : Nat) (dm : List (Nat × List Nat)) : List (Nat × List Nat) :=
  match mapGet obj dm with
  | some ks => mapSet obj (setAdd key ks) dm
  | none => dm ++ [(obj, setAdd key [])]

/-- The module-level mutable state of connect.ts: the ambient context
pointer, the current lifecycle hook (lifecycle.ts, a plain module-level
variable read and written by `runInContext`), the process-global pending
`effects` map, the process-global `depsMap` read-set, and the per-host side
tables (`injectorMap`, `hooksMap`, `cleanupMap` buckets and captured
dependency snapshots). -/
structure GlobalState where
  activeContext : Option Nat
  currentLifecycle : Option Phase
  effects : List (Nat × EffectOptions)
  depsMap : List (Nat × List Nat)
  injectorMap : List (Nat × Nat)
  hooksMap : List (Nat × List (Nat × List Nat))
  buckets : List (Nat × List Teardown)
  snapshots : List (Nat × List (Nat × List Nat))
deriving DecidableEq, Repr

/-- connect.ts `getContext()`: returns the ambient context pointer or throws
the invalid-execution-context error. -/
def getContext (s : GlobalState) : GlobalState × Except NgError Nat :=
  match s.activeContext with
  | some c => (s, .ok c)
  | none => (s, .error .invalidExecutionContext)

/-- connect.ts `getInjector(context = getContext())`, as invoked with no
argument by `inject`: reads the ambient pointer, then looks the context up
in `injectorMap`, throwing when the entry is missing. -/
def getInjector (s : GlobalState) : GlobalState × Except NgError Nat :=
  match s.activeContext with
  | some c =>
    match mapGet c s.injectorMap with
    | some inj => (s, .ok inj)
    | none => (s, .error .injectorNotFound)
  | none => (s, .error .invalidExecutionContext)

/-- connect.ts `setContext(context?)`. -/
def setContext (c : Option Nat) (s : GlobalState) : GlobalState :=
  { s with activeContext := c }

/-- lifecycle.ts `setLifecycleHook(lifecycle?)`, a plain setter for the
module-level current-hook variable (the file itself is not among the
sources; its shape is fixed by the `getLifecycleHook`/`setLifecycleHook`
calls in connect.ts). -/
def setLifecycleHook (lc : Option Phase) (s : GlobalState) : GlobalState :=
  { s with currentLifecycle := lc }

/-- connect.ts `runInContext(context, lifecycle, func)`: sets the ambient
pointer and the current hook, invokes `func`, and clears both afterwards.
The clearing statements follow the call with no try/finally, so an exception
inside `func` propagates with both variables left as `func` last set them. -/
def runInContext (ctx : Nat) (lc : Option Phase)
    (f : GlobalState → GlobalState × Except NgError α) (s : GlobalState) :
    GlobalState × Except NgError α :=
  let s1 := setLifecycleHook lc (setContext (some ctx) s)
  match f s1 with
  | (s2, .ok v) => (setLifecycleHook none (setContext none s2), .ok v)
  | (s2, .error e) => (s2, .error e)

/-- connect.ts `addEffect(fn, options = empty)`: writes directly into the
process-global `effects` map.  Unlike the other registration APIs it never
consults the ambient context, so it cannot fail. -/
def addEffect (fn : Nat) (opts : EffectOptions) (s : GlobalState) :
    GlobalState × Except NgError Unit :=
  ({ s with effects := mapSet fn opts s.effects }, .ok ())

/-- connect.ts `addHook(fn, lifecycle)`: reads the ambient context via
`getContext` (throwing when none is set) and then adds `fn` to the hook
set of that context for `lifecycle`; the optional chaining makes the write
a no-op when either map entry is missing. -/
def addHook (fn : Nat) (lc : Nat) (s : GlobalState) :
    GlobalState × Except NgError Unit :=
  match s.activeContext with
  | none => (s, .error .invalidExecutionContext)
  | some c =>
    match mapGet c s.hooksMap with
    | none => (s, .ok ())
    | some perPhase =>
      match mapGet lc perPhase with
      | none => (s, .ok ())
      | some hooks =>
        ({ s with hooksMap := mapSet c (mapSet lc (setAdd fn hooks) perPhase) s.hooksMap },
         .ok ())

/-- connect.ts `flushDeps()`: copies the global `depsMap` and clears it. -/
def flushDeps (s : GlobalState) : GlobalState × List (Nat × List Nat) :=
  ({ s with depsMap := [] }, s.depsMap)

/-- Own-property descriptor of a JS object, at the granularity inspected by
the `reactiveFactory` get trap: `value` is what `Reflect.get` yields, and
`accessor` tells a get/set-defined property from a data property. -/
structure PropDesc where
  value : Nat
  enumerable : Bool
  writable : Bool
  configurable : Bool
  accessor : Bool
deriving DecidableEq, Repr

/-- A proxied target object: identity, own properties with descriptors, and
the values reachable through its prototype chain. -/
structure HostObj where
  id : Nat
  props : List (Nat × PropDesc)
  protoVals : List (Nat × Nat)
deriving DecidableEq, Repr

/-- JS `Object.getOwnPropertyDescriptor(target, p)`. -/
def getOwnPropertyDesc (target : HostObj) (p : Nat) : Option PropDesc :=
  mapGet p target.props

/-- JS `Reflect.get(target, p, receiver)`: the own value when the property
exists, otherwise the prototype-chain value, otherwise `undefined`
(`none`). -/
def reflectGet (target : HostObj) (p : Nat) : Option Nat :=
  match mapGet p target.props with
  | some d => some d.value
  | none => mapGet p target.protoVals

/-- The get trap of the proxy returned by connect.ts `reactiveFactory` with
its default options (`shallow := true`, under which the trap always returns
the underlying value): reads the value, fetches the own-property descriptor,
and records the`(target, p)` pair into the global read-set exactly when the
descriptor exists and is enumerable. -/
def proxyGet (target : HostObj) (p : Nat) (s : GlobalState) :
    GlobalState × Option Nat :=
  let value := reflectGet target p
  match getOwnPropertyDesc target p with
  | some d =>
    if d.enumerable then ({ s with depsMap := addDeps target.id p s.depsMap }, value)
    else (s, value)
  | none => (s, value)

/-- connect.ts `reactiveFactory(source)` itself: the first statement reads
the ambient context (for the set trap), so creating the view throws with no
active context; nothing is mutated on that path. -/
def reactiveFactory (s : GlobalState) : GlobalState × Except NgError Nat :=
  match s.activeContext with
  | some c => (s, .ok c)
  | none => (s, .error .invalidExecutionContext)

/-- The keys recorded in the global read-set for one object. -/
def depsKeysOf (dm : List (Nat × List Nat)) (obj : Nat) : List Nat :=
  (mapGet obj dm).getD []

/-- JS `Set.prototype.add` for teardown values: object identity is the ids
carried by `func` and `sub`; identical values collapse into one entry. -/
def setAddT (t : Teardown) (l : List Teardown) : List Teardown :=
  if t ∈ l then l else l ++ [t]

/-- The cleanup bucket a host passes to `runEffects` (empty when the host
was never connected). -/
def bucketOf (s : GlobalState) (host : Nat) : List Teardown :=
  (mapGet host s.buckets).getD []

/-- connect.ts `runEffect(context, effect, options, cleanup)`, at the
granularity of this state: discards the stale global read-set, removes the
effect from the global pending map, runs the callback (which performs the
reads `effReads effect` through reactive views and returns the teardown
`effRet effect`), captures the read-set as the dependency snapshot when
`options.watch` is set, and adds the returned teardown to the supplied
cleanup bucket — the bucket of whichever host is running.  The result
carries an error channel to make explicit that the body has no throw: the
callback's return value is stored without any validation. -/
def runEffect (effRet : Nat → Teardown) (effReads : Nat → List (Nat × Nat))
    (host : Nat) (eff : Nat) (opts : EffectOptions) (s : GlobalState) :
    GlobalState × Except NgError Unit :=
  let s1 := { s with depsMap := [] }
  let s2 := { s1 with effects := mapDelete eff s1.effects }
  let s3 := { s2 with
    depsMap := (effReads eff).foldl (fun dm (rk : Nat × Nat) => addDeps rk.1 rk.2 dm)
      s2.depsMap }
  let deps := if opts.watch then s3.depsMap else []
  let s4 := { s3 with depsMap := if opts.watch then [] else s3.depsMap }
  let s5 := { s4 with snapshots := mapSet eff deps s4.snapshots }
  ({ s5 with buckets := mapSet host (setAddT (effRet eff) (bucketOf s5 host)) s5.buckets },
   .ok ())

/-- Iteration of connect.ts `runEffects` over a pending-effects list. -/
def runEffectsGo (effRet : Nat → Teardown) (effReads : Nat → List (Nat × Nat))
    (host : Nat) : List (Nat × EffectOptions) → GlobalState → GlobalState
  | [], s => s
  | (eff, opts) :: rest, s =>
    runEffectsGo effRet effReads host rest (runEffect effRet effReads host eff opts s).1

/-- connect.ts `runEffects(context, cleanup)`: drains every entry of the
process-global `effects` map through `runEffect`, against the bucket of the
host that happens to be running. -/
def runEffects (effRet : Nat → Teardown) (effReads : Nat → List (Nat × Nat))
    (host : Nat) (s : GlobalState) : GlobalState :=
  runEffectsGo effRet effReads host s.effects s

/-- A return value of a deprecated-API effect method: either a plain value
(classified below) or an rxjs observable. -/
inductive EffectReturn
  | ret (t : Teardown)
  | observable (id : Nat)
deriving DecidableEq, Repr

/-- What the deprecated runner does with a classified return value. -/
inductive DeprecatedAction
  | skip
  | subscribe (id : Nat)
  | addTeardown (t : Teardown)
deriving DecidableEq, Repr

/-- Modelled from the spec: `isTeardownLogic` is defined in
internals/utils.ts, which is absent from the sources; per the spec (§4.4
failure semantics and §9) teardown logic is a nullary function or a resource
handle exposing a release operation. -/
def isTeardownLogic : Teardown → Bool
  | .func _ => true
  | .sub _ => true
  | _ => false

/-- run-effects.ts `runEffect` (deprecated decorator API), reduced to its
classification of the effect return value: `undefined` is skipped, an
observable is subscribed, teardown logic is retained, and every other value
throws the bad-return-type error. -/
def classifyDeprecatedReturn : EffectReturn → Except NgError DeprecatedAction
  | .ret .undef => .ok .skip
  | .observable id => .ok (.subscribe id)
  | .ret t => if isTeardownLogic t then .ok (.addTeardown t) else .error .badReturnType

namespace Invalidate

/-- A dependency pair: the identity of the object read and the key read. -/
abbrev ObjKey := Nat × Nat

/-- The current value of every (object, key) pair, i.e. the readable state of
the process at the time of an invalidation pass. -/
abbrev Store := ObjKey → Nat

/-- One entry of a host's `invalidations` map (connect.ts): the invalidate
thunk closes over the effect callback, its dependency snapshot (`deps`,
flattened in map-of-sets iteration order), and the teardown of the last run;
`prev` is the array held for `deps` in the `previousValues` table. -/
structure Entry where
  effect : Nat
  deps : List ObjKey
  prev : List Nat
  teardown : Nat
deriving DecidableEq, Repr

/-- connect.ts `getCurrentValues(deps)`: the values of the snapshot's pairs,
flattened in iteration order. -/
def getCurrentValues (store : Store) (deps : List ObjKey) : List Nat :=
  deps.map store

/-- Observable actions of an invalidation pass: releasing a teardown (the
`unsubscribe(teardown)` inside an invalidate thunk) and re-running an effect
(the thunk returned by `invalidate()`, executed after the scan, calling
`runEffect` which produces the new teardown). -/
inductive Ev
  | release (t : Nat)
  | rerun (eff : Nat) (t : Nat)
deriving DecidableEq, Repr

/-- The state the invalidation engine manipulates for one host: its
invalidation entries in insertion order, the cleanup bucket the effects'
teardowns live in, and a counter allocating identities for new teardowns. -/
structure EngineState where
  entries : List Entry
  cleanup : List Nat
  fresh : Nat
deriving DecidableEq, Repr

/-- The inner comparison loop of `invalidateEffects`: `previous[index] !==
value` for each index of the freshly computed array (the two arrays have
equal length whenever this loop is reached). -/
def valuesDiffer (previous current : List Nat) : Bool :=
  (current.zip previous).any fun cp => cp.1 != cp.2

/-- The scan loop of connect.ts `invalidateEffects`: walks the entries in
insertion order threading the cleanup bucket.  Per entry it recomputes the
current values and stores them as the new previous values; the `current ===
previous` reference comparison of the source can never hold (both sides are
distinct array objects) and is elided.  On a length mismatch the entry is
invalidated (its teardown removed from the bucket and released, the entry
dropped) and the `break` leaves the remaining entries unexamined; on a value
difference the entry is likewise invalidated but the walk continues; an
unchanged entry is kept, its `prev` refreshed.  Results, in order: the
entries remaining registered, the cleanup bucket, the invalidated entries
(whose rerun thunks are in the `run` set), and the release events. -/
def scanPass (store : Store) :
    List Entry → List Nat → (List Entry × List Nat × List Entry × List Ev)
  | [], c => ([], c, [], [])
  | e :: rest, c =>
    let current := getCurrentValues store e.deps
    if current.length ≠ e.prev.length then
      (rest, c.erase e.teardown, [e], [Ev.release e.teardown])
    else if valuesDiffer e.prev current then
      let r := scanPass store rest (c.erase e.teardown)
      (r.1, r.2.1, e :: r.2.2.1, Ev.release e.teardown :: r.2.2.2)
    else
      let r := scanPass store rest c
      ({ e with prev := current } :: r.1, r.2.1, r.2.2.1, r.2.2.2)

/-- connect.ts `runEffect` as invoked by a rerun thunk: the callback runs
again (re-recording the reads `effRead effect` when `options.watch` is set),
a fresh teardown is produced and added to the cleanup bucket, and a new
entry with the new snapshot and its current values is appended to the
invalidations map. -/
def runEffectE (store : Store) (effRead : Nat → List ObjKey) (watch : Nat → Bool)
    (eff : Nat) (s : EngineState) : EngineState × Ev :=
  let deps := if watch eff then effRead eff else []
  let t := s.fresh
  ({ entries := s.entries ++ [⟨eff, deps, getCurrentValues store deps, t⟩],
     cleanup := setAdd t s.cleanup,
     fresh := s.fresh + 1 }, Ev.rerun eff t)

/-- The run loop of `invalidateEffects`: the rerun thunks collected in the
`run` set execute in insertion order, once each. -/
def runMarked (store : Store) (effRead : Nat → List ObjKey) (watch : Nat → Bool) :
    List Entry → EngineState → EngineState × List Ev
  | [], s => (s, [])
  | e :: rest, s =>
    let r := runEffectE store effRead watch e.effect s
    let r2 := runMarked store effRead watch rest r.1
    (r2.1, r.2 :: r2.2)

/-- connect.ts `invalidateEffects(target)`: the scan followed by the reruns,
with the trace of releases and reruns in execution order. -/
def invalidateEffects (store : Store) (effRead : Nat → List ObjKey)
    (watch : Nat → Bool) (s : EngineState) : EngineState × List Ev :=
  let sc := scanPass store s.entries s.cleanup
  let r := runMarked store effRead watch sc.2.2.1 { s with entries := sc.1, cleanup := sc.2.1 }
  (r.1, sc.2.2.2 ++ r.2)

/-- The marking condition of the claim: the pair count changed or some
single value differs. -/
def markCond (store : Store) (e : Entry) : Bool :=
  ((getCurrentValues store e.deps).length != e.prev.length) ||
    valuesDiffer e.prev (getCurrentValues store e.deps)

/-- Effect of one trace event on a cleanup bucket. -/
def applyEv (c : List Nat) : Ev → List Nat
  | .release t => c.erase t
  | .rerun _ t => setAdd t c

/-- Replay of a trace over a cleanup bucket: the bucket contents at the
intermediate moment after the replayed events. -/
def applyEvs (c : List Nat) (evs : List Ev) : List Nat :=
  evs.foldl applyEv c

/-- Well-formedness of an engine state, as established by `connect` and
`runEffect`: bucket entries are distinct live teardown identities below the
allocation counter, entries hold distinct teardowns that live in the bucket,
and distinct entries belong to distinct effect callbacks. -/
def wf (s : EngineState) : Prop :=
  s.cleanup.Nodup ∧ (∀ t ∈ s.cleanup, t < s.fresh) ∧
    (s.entries.map Entry.teardown).Nodup ∧
    (∀ e ∈ s.entries, e.teardown ∈ s.cleanup) ∧
    (s.entries.map Entry.effect).Nodup

/-- Recognises the rerun event of a given effect. -/
def isRerunOf (eff : Nat) : Ev → Bool
  | .rerun f _ => f = eff
  | _ => false

/-- Recognises a release event. -/
def isRelease : Ev → Bool
  | .release _ => true
  | _ => false

end Invalidate

namespace Sched

/-- One lifecycle slot of a connected host: the phase, the hook callbacks
registered for it (a JS Set, insertion ordered), and its cleanup bucket of
teardown identities.  `connect` creates the hook set and the bucket for the
same six numeric keys, which keeps the two maps aligned. -/
structure Part where
  phase : Phase
  hooks : List Nat
  bucket : List Nat
deriving DecidableEq, Repr

/-- A host's phase bus and lifecycle state: the six parts in map insertion
order (the subscription order of the `runHooks` subscribers), the global
pending-effects queue as visible to this host, the one-shot `changed` flag of
`runScheduler`, whether the subject has completed, and the ambient context
pointer (`active` says the pointer designates this host, `lc` is the current
lifecycle hook). -/
structure Bus where
  parts : List Part
  pending : List Nat
  changed : Bool
  closed : Bool
  active : Bool
  lc : Option Phase
  fresh : Nat
deriving DecidableEq, Repr

/-- Observable actions of the scheduler: releasing a teardown while flushing
a bucket, entering and leaving a hook callback (recording the ambient
context the callback observes), a teardown being stored, a pending effect
being run, the invalidation pass of a change check, the dirty-marking of the
change detector, the emission of the WhenRendered phase, and the completion
of the subject. -/
inductive Ev
  | flushT (p : Phase) (t : Nat)
  | hookStart (p : Phase) (h : Nat) (activeCtx : Bool) (ambient : Option Phase)
  | hookEnd (p : Phase) (h : Nat)
  | teardown (p : Phase) (t : Nat)
  | effectRun (eff : Nat) (p : Phase) (t : Nat)
  | invalidatePass
  | markDirty
  | rendered
  | completed
deriving DecidableEq, Repr

/-- The bucket of phase `p` (empty when no part exists for it). -/
def bucketAt (b : Bus) (p : Phase) : List Nat :=
  ((b.parts.find? fun pt => pt.phase = p).map Part.bucket).getD []

/-- Replace the bucket of phase `p` by applying `f`. -/
def updateBucket (p : Phase) (f : List Nat → List Nat) (parts : List Part) : List Part :=
  parts.map fun pt => if pt.phase = p then { pt with bucket := f pt.bucket } else pt

/-- connect.ts `flush(cleanup)`: every teardown in the bucket is released in
insertion order and the bucket is cleared. -/
def flushBucket (p : Phase) (b : Bus) : Bus × List Ev :=
  ({ b with parts := updateBucket p (fun _ => []) b.parts },
   (bucketAt b p).map (Ev.flushT p))

/-- The drain of the global pending-effects queue performed by `runEffects`
inside a hook runner: each pending effect runs, its teardown is added to the
bucket of the phase being run (the invalidation bookkeeping of `runEffect`
is modelled separately in `Invalidate`). -/
def drainGo (p : Phase) : List Nat → Bus → Bus × List Ev
  | [], b => (b, [])
  | eff :: rest, b =>
    let t := b.fresh
    let b1 := { b with fresh := t + 1, parts := updateBucket p (setAdd t) b.parts }
    let r := drainGo p rest b1
    (r.1, Ev.effectRun eff p t :: r.2)

/-- Runs `runEffects` against phase `p`'s bucket: the queue empties. -/
def drainEffects (p : Phase) (b : Bus) : Bus × List Ev :=
  drainGo p b.pending { b with pending := [] }

/-- The body the hook runner executes per hook: `cleanup.add(hook())`
followed by `runEffects(context, cleanup)`.  The hook callback itself runs
first (possibly registering effects, `hookRegs h`), returns one fresh
teardown, and then the pending queue is drained into the same bucket.  The
hookStart event records the ambient context the callback observes. -/
def hookBody (hookRegs : Nat → List Nat) (p : Phase) (h : Nat) (b : Bus) :
    Bus × List Ev :=
  let t := b.fresh
  let b1 := { b with fresh := t + 1, pending := b.pending ++ hookRegs h }
  let b2 := { b1 with parts := updateBucket p (setAdd t) b1.parts }
  let r := drainEffects p b2
  (r.1, Ev.hookStart p h b.active b.lc :: Ev.teardown p t :: r.2 ++ [Ev.hookEnd p h])

/-- connect.ts `runInContext(context, lifecycle, func)` at the bus level:
the ambient pointer and current hook are set for the duration of `func` and
cleared afterwards. -/
def runInCtx (lc : Option Phase) (f : Bus → Bus × List Ev) (b : Bus) : Bus × List Ev :=
  let b1 := { b with active := true, lc := lc }
  let r := f b1
  ({ r.1 with active := false, lc := none }, r.2)

/-- The hook loop of `runHooks`: each registered hook runs wrapped in
`runInContext(context, lifecycle, …)`, in registration order. -/
def runHooksGo (hookRegs : Nat → List Nat) (p : Phase) :
    List Nat → Bus → Bus × List Ev
  | [], b => (b, [])
  | h :: rest, b =>
    let r := runInCtx (some p) (hookBody hookRegs p h) b
    let r2 := runHooksGo hookRegs p rest r.1
    (r2.1, r.2 ++ r2.2)

/-- Delivery of a phase to the `runHooks` subscribers in subscription order:
the subscriber whose registered lifecycle matches first flushes its cleanup
bucket, then runs its hooks. -/
def deliverGo (hookRegs : Nat → List Nat) (lc : Phase) :
    List (Phase × List Nat) → Bus → Bus × List Ev
  | [], b => (b, [])
  | (p, hs) :: rest, b =>
    if p = lc then
      let f := flushBucket p b
      let r := runHooksGo hookRegs p hs f.1
      let r2 := deliverGo hookRegs lc rest r.1
      (r2.1, f.2 ++ r.2 ++ r2.2)
    else deliverGo hookRegs lc rest b

/-- One `scheduler.next(lc)` as seen by the `runHooks` subscribers (their
subscriptions were taken over the hook map's entries at setup time). -/
def deliverHooks (hookRegs : Nat → List Nat) (lc : Phase) (b : Bus) : Bus × List Ev :=
  deliverGo hookRegs lc (b.parts.map fun pt => (pt.phase, pt.hooks)) b

/-- Completion of the subject: every `runHooks` subscriber's complete
handler flushes its own bucket, in subscription order. -/
def completeGo : List Phase → Bus → Bus × List Ev
  | [], b => (b, [])
  | p :: rest, b =>
    let f := flushBucket p b
    let r := completeGo rest f.1
    (r.1, f.2 ++ r.2)

/-- connect.ts `scheduler.complete()` as observed through the `runHooks`
complete handlers. -/
def completeAll (b : Bus) : Bus × List Ev :=
  completeGo (b.parts.map Part.phase) b

/-- The `runScheduler` subscriber, the last subscription on the subject: on
DoCheck it runs the invalidation pass and, when the key-value differ reports
a change (`det`), sets the one-shot flag, marks the view for check and emits
OnChanges; on AfterViewChecked it consumes the flag, emitting WhenRendered
wrapped in the ambient context; on OnDestroy it completes and unsubscribes
the subject.  Nested emissions reach the `runHooks` subscribers and fall
into no case of this switch. -/
def schedulerStep (hookRegs : Nat → List Nat) (det : Bool) (lc : Phase) (b : Bus) :
    Bus × List Ev :=
  match lc with
  | .DoCheck =>
    if det then
      let b1 := { b with changed := true }
      let r := deliverHooks hookRegs .OnChanges b1
      (r.1, Ev.invalidatePass :: Ev.markDirty :: r.2)
    else (b, [Ev.invalidatePass])
  | .AfterViewChecked =>
    if b.changed then
      let r := runInCtx (some .WhenRendered) (deliverHooks hookRegs .WhenRendered)
        { b with changed := false }
      (r.1, Ev.rendered :: r.2)
    else (b, [])
  | .OnDestroy =>
    let r := completeAll b
    ({ r.1 with closed := true }, r.2 ++ [Ev.completed])
  | _ => (b, [])

/-- One `scheduler.next(lc)` on the subject: nothing on a completed subject,
otherwise delivery to the `runHooks` subscribers followed by the
`runScheduler` subscriber. -/
def emit (hookRegs : Nat → List Nat) (det : Bool) (lc : Phase) (b : Bus) :
    Bus × List Ev :=
  if b.closed then (b, [])
  else
    let r := deliverHooks hookRegs lc b
    let r2 := schedulerStep hookRegs det lc r.1
    (r2.1, r.2 ++ r2.2)

/-- connect.ts `schedule(lifecycle, context)`: the emission wrapped in
`runInContext(context, lifecycle, …)`. -/
def schedule (hookRegs : Nat → List Nat) (det : Bool) (lc : Phase) (b : Bus) :
    Bus × List Ev :=
  runInCtx (some lc) (emit hookRegs det lc) b

/-- The external triggers of the framework boundary: `check` carries whether
the key-value differ detects a change on that pass. -/
inductive Trig
  | init
  | check (det : Bool)
  | viewInit
  | viewChecked
  | destroy
deriving DecidableEq, Repr

/-- The phase each external entry point schedules (connect.ts `check`,
`viewInit`, `viewChecked`, `destroy` and the initial `schedule(OnInit)`). -/
def trigPhase : Trig → Phase
  | .init => .OnInit
  | .check _ => .DoCheck
  | .viewInit => .AfterViewInit
  | .viewChecked => .AfterViewChecked
  | .destroy => .OnDestroy

/-- The differ outcome of a trigger (meaningful only for `check`). -/
def trigDet : Trig → Bool
  | .check d => d
  | _ => false

/-- One external trigger processed start to finish. -/
def step (hookRegs : Nat → List Nat) (tg : Trig) (b : Bus) : Bus × List Ev :=
  schedule hookRegs (trigDet tg) (trigPhase tg) b

/-- A sequence of external triggers processed in order, with the
concatenated trace. -/
def runTrigs (hookRegs : Nat → List Nat) : List Trig → Bus → Bus × List Ev
  | [], b => (b, [])
  | tg :: rest, b =>
    let r := step hookRegs tg b
    let r2 := runTrigs hookRegs rest r.1
    (r2.1, r.2 ++ r2.2)

/-- A host's bus right after `connect` and `setup`: six empty parts (the
identity of the sixth slot besides the five hookable phases is fixed by the
numeric enum, absent from the sources; it is immaterial below and DoCheck is
used), no pending effects, and the one-shot flag initialised to `true` as in
`runScheduler`. -/
def connectedBus (hooks : Phase → List Nat) : Bus :=
  { parts := [⟨.OnChanges, hooks .OnChanges, []⟩, ⟨.OnInit, hooks .OnInit, []⟩,
              ⟨.DoCheck, hooks .DoCheck, []⟩, ⟨.AfterViewInit, hooks .AfterViewInit, []⟩,
              ⟨.WhenRendered, hooks .WhenRendered, []⟩, ⟨.OnDestroy, hooks .OnDestroy, []⟩],
    pending := [], changed := true, closed := false, active := false, lc := none,
    fresh := 0 }

/-- All teardown identities held in any bucket of the bus. -/
def busTeardowns (b : Bus) : List Nat :=
  (b.parts.map Part.bucket).flatten

/-- Well-formedness of a bus between triggers: distinct phases, duplicate-free
hook sets and buckets, globally distinct teardown identities below the
allocation counter, an empty pending queue and a cleared ambient pointer. -/
def wfBus (b : Bus) : Prop :=
  (b.parts.map Part.phase).Nodup ∧
    (∀ pt ∈ b.parts, pt.hooks.Nodup ∧ pt.bucket.Nodup) ∧
    (busTeardowns b).Nodup ∧
    (∀ t ∈ busTeardowns b, t < b.fresh) ∧
    b.pending = [] ∧ b.active = false ∧ b.lc = none

/-- The events that the hook-runner layer (`runHooks` subscriptions) can
emit; the scheduler-only events — invalidation, dirty-marking, the Rendered
emission and completion — never originate there. -/
def hookLayerEv : Ev → Bool
  | .flushT _ _ => true
  | .hookStart _ _ _ _ => true
  | .hookEnd _ _ => true
  | .teardown _ _ => true
  | .effectRun _ _ _ => true
  | .invalidatePass => false
  | .markDirty => false
  | .rendered => false
  | .completed => false

/-- Recognises a bucket-flush release event. -/
def isFlushEv : Ev → Bool
  | .flushT _ _ => true
  | _ => false

/-- Recognises the events that bracket a hook callback's execution. -/
def isHookBoundary : Ev → Bool
  | .hookStart _ _ _ _ => true
  | .hookEnd _ _ => true
  | _ => false

/-- The expected bracketing of a phase's hooks when run in registration
order, each inside the ambient context of (this host, that phase): hook h
starts — observing an active pointer and the phase as current hook — and
ends before the next hook starts. -/
def hookBoundary (lc : Phase) : List Nat → List Ev
  | [] => []
  | h :: rest =>
    Ev.hookStart lc h true (some lc) :: Ev.hookEnd lc h :: hookBoundary lc rest

/-- The teardown identities released (unsubscribed) by a trace, in order. -/
def releasedIds (evs : List Ev) : List Nat :=
  evs.filterMap fun ev =>
    match ev with
    | .flushT _ t => some t
    | _ => none

/-- The teardown identities created and stored by a trace, in order (hook
return values and effect return values). -/
def addedIds (evs : List Ev) : List Nat :=
  evs.filterMap fun ev =>
    match ev with
    | .teardown _ t => some t
    | .effectRun _ _ t => some t
    | _ => none

/-- The bookkeeping invariant each bus operation satisfies: the phase
skeleton of the parts is untouched, the allocation counter only grows, the
identities created are exactly the counter values consumed, every teardown
is conserved — what is held afterwards plus what was released is a
permutation of what was held before plus what was created — and every held
teardown stays below the counter. -/
def OpInv (b b' : Bus) (evs : List Ev) : Prop :=
  b'.parts.map Part.phase = b.parts.map Part.phase ∧
    b.fresh ≤ b'.fresh ∧
    addedIds evs = List.range' b.fresh (b'.fresh - b.fresh) ∧
    (busTeardowns b' ++ releasedIds evs).Perm (busTeardowns b ++ addedIds evs) ∧
    ∀ t ∈ busTeardowns b', t < b'.fresh

/-- Pointwise effect of completing the subject: the parts whose phase was
flushed hold empty buckets. -/
def emptyBucketsFor (l : List Phase) (pt : Part) : Part :=
  if pt.phase ∈ l then { pt with bucket := [] } else pt

end Sched

/-! Association-list lemmas for the JS map and set operations. -/

theorem mapGet_mapSet_self (k : Nat) (v : α) (l : List (Nat × α)) :
    mapGet k (mapSet k v l) = some v := by
  induction l with
  | nil => simp [mapSet, mapGet]
  | cons hd tl ih =>
    by_cases h : hd.1 = k
    · simp [mapSet, mapGet, h]
    · simpa [mapSet, mapGet, h] using ih

theorem mapGet_mapSet_ne (k k' : Nat) (v : α) (l : List (Nat × α)) (h : k' ≠ k) :
    mapGet k' (mapSet k v l) = mapGet k' l := by
  have h' : k ≠ k' := fun hh => h hh.symm
  induction l with
  | nil => simp [mapSet, mapGet, h']
  | cons hd tl ih =>
    obtain ⟨k1, v1⟩ := hd
    by_cases hk : k1 = k
    · subst hk
      simp [mapSet, mapGet, h']
    · simp [mapSet, mapGet, hk, ih]

theorem mapGet_append (k : Nat) (l l' : List (Nat × α)) :
    mapGet k (l ++ l') = ((mapGet k l).map some).getD (mapGet k l') := by
  induction l with
  | nil => simp [mapGet]
  | cons hd tl ih =>
    by_cases hk : hd.1 = k
    · simp [mapGet, hk]
    · simp [mapGet, hk, ih]

theorem depsKeysOf_addDeps_self (obj key : Nat) (dm : List (Nat × List Nat)) :
    depsKeysOf (addDeps obj key dm) obj = setAdd key (depsKeysOf dm obj) := by
  unfold addDeps depsKeysOf
  cases h : mapGet obj dm with
  | some ks => simp [h, mapGet_mapSet_self]
  | none => simp [h, mapGet_append, mapGet]

theorem depsKeysOf_addDeps_ne (obj obj' key : Nat) (dm : List (Nat × List Nat))
    (h : obj' ≠ obj) : depsKeysOf (addDeps obj key dm) obj' = depsKeysOf dm obj' := by
  unfold addDeps depsKeysOf
  cases hg : mapGet obj dm with
  | some ks => simp [hg, mapGet_mapSet_ne _ _ _ _ h]
  | none =>
    have h' : obj ≠ obj' := fun hh => h hh.symm
    cases hg' : mapGet obj' dm <;> simp [hg', mapGet_append, mapGet, h']

theorem mem_setAddT_self (t : Teardown) (l : List Teardown) : t ∈ setAddT t l := by
  unfold setAddT
  split
  · assumption
  · simp

theorem mem_setAddT_of_mem {t : Teardown} (u : Teardown) {l : List Teardown}
    (h : t ∈ l) : t ∈ setAddT u l := by
  unfold setAddT
  split
  · exact h
  · exact List.mem_append_left _ h

theorem runEffect_bucket_self (er : Nat → Teardown) (rd : Nat → List (Nat × Nat))
    (host eff : Nat) (opts : EffectOptions) (s : GlobalState) :
    bucketOf (runEffect er rd host eff opts s).1 host =
      setAddT (er eff) (bucketOf s host) := by
  simp [runEffect, bucketOf, mapGet_mapSet_self]

theorem runEffect_bucket_ne (er : Nat → Teardown) (rd : Nat → List (Nat × Nat))
    (host h' eff : Nat) (opts : EffectOptions) (s : GlobalState) (hne : h' ≠ host) :
    bucketOf (runEffect er rd host eff opts s).1 h' = bucketOf s h' := by
  simp [runEffect, bucketOf, mapGet_mapSet_ne _ _ _ _ hne]

theorem runEffect_effects (er : Nat → Teardown) (rd : Nat → List (Nat × Nat))
    (host eff : Nat) (opts : EffectOptions) (s : GlobalState) :
    (runEffect er rd host eff opts s).1.effects = mapDelete eff s.effects := rfl

theorem runEffectsGo_effects (er : Nat → Teardown) (rd : Nat → List (Nat × Nat))
    (host : Nat) : ∀ (l : List (Nat × EffectOptions)) (s : GlobalState),
    s.effects = l → (runEffectsGo er rd host l s).effects = [] := by
  intro l
  induction l with
  | nil => intro s hs; simpa [runEffectsGo] using hs
  | cons pe rest ih =>
    intro s hs
    obtain ⟨eff, opts⟩ := pe
    apply ih
    rw [runEffect_effects, hs]
    simp [mapDelete]

theorem runEffectsGo_bucket_mono (er : Nat → Teardown) (rd : Nat → List (Nat × Nat))
    (host : Nat) (t : Teardown) : ∀ (l : List (Nat × EffectOptions)) (s : GlobalState),
    t ∈ bucketOf s host → t ∈ bucketOf (runEffectsGo er rd host l s) host := by
  intro l
  induction l with
  | nil => intro s hs; simpa [runEffectsGo] using hs
  | cons pe rest ih =>
    intro s hs
    obtain ⟨eff, opts⟩ := pe
    apply ih
    rw [runEffect_bucket_self]
    exact mem_setAddT_of_mem _ hs

theorem runEffectsGo_bucket_ne (er : Nat → Teardown) (rd : Nat → List (Nat × Nat))
    (host h' : Nat) (hne : h' ≠ host) : ∀ (l : List (Nat × EffectOptions)) (s : GlobalState),
    bucketOf (runEffectsGo er rd host l s) h' = bucketOf s h' := by
  intro l
  induction l with
  | nil => intro s; simp [runEffectsGo]
  | cons pe rest ih =>
    intro s
    obtain ⟨eff, opts⟩ := pe
    rw [runEffectsGo, ih, runEffect_bucket_ne _ _ _ _ _ _ _ hne]

theorem runEffectsGo_consumes (er : Nat → Teardown) (rd : Nat → List (Nat × Nat))
    (host : Nat) : ∀ (l : List (Nat × EffectOptions)) (s : GlobalState),
    ∀ pe ∈ l, er pe.1 ∈ bucketOf (runEffectsGo er rd host l s) host := by
  intro l
  induction l with
  | nil => intro s pe hpe; simp at hpe
  | cons hd rest ih =>
    intro s pe hpe
    obtain ⟨eff, opts⟩ := hd
    rcases List.mem_cons.mp hpe with heq | hmem
    · subst heq
      rw [runEffectsGo]
      apply runEffectsGo_bucket_mono
      rw [runEffect_bucket_self]
      exact mem_setAddT_self _ _
    · exact ih _ pe hmem

theorem runInContext_eq (ctx : Nat) (lc : Option Phase)
    (f : GlobalState → GlobalState × Except NgError α) (s : GlobalState) :
    runInContext ctx lc f s =
      match f (setLifecycleHook lc (setContext (some ctx) s)) with
      | (s2, .ok v) => (setLifecycleHook none (setContext none s2), .ok v)
      | (s2, .error e) => (s2, .error e) := rfl

/-- C10: when the wrapped function throws, `runInContext` propagates the
exception and the ambient context pointer and current lifecycle hook are
left as the callee last set them — still designating the entered context and
phase whenever the callee did not itself move them — because the clearing
statements follow the call with no try/finally; both are cleared only when
the function returns normally. -/
theorem runInContext_exception_keeps_pointer (ctx : Nat) (lc : Option Phase)
    (f : GlobalState → GlobalState × Except NgError α) (s t : GlobalState) (e : NgError)
    (hf : f (setLifecycleHook lc (setContext (some ctx) s)) = (t, .error e))
    (hactive : t.activeContext =
      (setLifecycleHook lc (setContext (some ctx) s)).activeContext)
    (hlc : t.currentLifecycle =
      (setLifecycleHook lc (setContext (some ctx) s)).currentLifecycle) :
    runInContext ctx lc f s = (t, .error e) ∧
      t.activeContext = some ctx ∧ t.currentLifecycle = lc ∧
      (∀ (g : GlobalState → GlobalState × Except NgError α) (s' u : GlobalState) (v : α),
        g (setLifecycleHook lc (setContext (some ctx) s')) = (u, .ok v) →
        (runInContext ctx lc g s').1.activeContext = none ∧
          (runInContext ctx lc g s').1.currentLifecycle = none) := by
  refine ⟨?_, ?_, ?_, ?_⟩
  · rw [runInContext_eq, hf]
  · simpa [setContext, setLifecycleHook] using hactive
  · simpa [setContext, setLifecycleHook] using hlc
  · intro g s' u v hg
    rw [runInContext_eq, hg]
    exact ⟨rfl, rfl⟩

/-- Witness for C10 at a concrete throwing function: the error propagates
and the pointer and hook remain set. -/
theorem runInContext_exception_keeps_pointer_witness :
    runInContext 0 (some Phase.OnInit)
        (fun u => (u, (.error .invalidExecutionContext : Except NgError Nat)))
        ⟨none, none, [], [], [], [], [], []⟩ =
      (⟨some 0, some Phase.OnInit, [], [], [], [], [], []⟩,
        .error .invalidExecutionContext) ∧
      (⟨some 0, some Phase.OnInit, [], [], [], [], [], []⟩ :
        GlobalState).activeContext = some 0 ∧
      (⟨some 0, some Phase.OnInit, [], [], [], [], [], []⟩ :
        GlobalState).currentLifecycle = some Phase.OnInit ∧
      (∀ (g : GlobalState → GlobalState × Except NgError Nat) (s' u : GlobalState) (v : Nat),
        g (setLifecycleHook (some Phase.OnInit) (setContext (some 0) s')) = (u, .ok v) →
        (runInContext 0 (some Phase.OnInit) g s').1.activeContext = none ∧
          (runInContext 0 (some Phase.OnInit) g s').1.currentLifecycle = none) :=
  runInContext_exception_keeps_pointer 0 (some Phase.OnInit) _ _ _ _ rfl rfl rfl

/-- C8 (amended): with no ambient context set, hook registration, dependency
lookup, context lookup and reactive-view creation all fail with the
invalid-execution-context error and leave every table untouched; effect
registration however never consults the ambient pointer — it succeeds and
mutates the process-global pending-effects map. -/
theorem no_active_context_behaviour (s : GlobalState) (h : s.activeContext = none)
    (fn lc eff : Nat) (opts : EffectOptions) :
    addHook fn lc s = (s, .error .invalidExecutionContext) ∧
      getInjector s = (s, .error .invalidExecutionContext) ∧
      getContext s = (s, .error .invalidExecutionContext) ∧
      reactiveFactory s = (s, .error .invalidExecutionContext) ∧
      (addEffect eff opts s).2 = .ok () ∧
      mapGet eff (addEffect eff opts s).1.effects = some opts := by
  refine ⟨?_, ?_, ?_, ?_, rfl, ?_⟩
  · simp [addHook, h]
  · simp [getInjector, h]
  · simp [getContext, h]
  · simp [reactiveFactory, h]
  · simp [addEffect, mapGet_mapSet_self]

/-- Witness for C8 at a concrete empty state with no ambient context. -/
theorem no_active_context_behaviour_witness :
    addHook 1 2 ⟨none, none, [], [], [], [], [], []⟩ =
      (⟨none, none, [], [], [], [], [], []⟩, .error .invalidExecutionContext) ∧
      getInjector ⟨none, none, [], [], [], [], [], []⟩ =
        (⟨none, none, [], [], [], [], [], []⟩, .error .invalidExecutionContext) ∧
      getContext ⟨none, none, [], [], [], [], [], []⟩ =
        (⟨none, none, [], [], [], [], [], []⟩, .error .invalidExecutionContext) ∧
      reactiveFactory ⟨none, none, [], [], [], [], [], []⟩ =
        (⟨none, none, [], [], [], [], [], []⟩, .error .invalidExecutionContext) ∧
      (addEffect 3 ⟨true⟩ ⟨none, none, [], [], [], [], [], []⟩).2 = .ok () ∧
      mapGet 3 (addEffect 3 ⟨true⟩ ⟨none, none, [], [], [], [], [], []⟩).1.effects =
        some ⟨true⟩ :=
  no_active_context_behaviour ⟨none, none, [], [], [], [], [], []⟩ rfl 1 2 3 ⟨true⟩

/-- C8 counterexample: `addEffect` invoked with no ambient context raises no
error and mutates the global pending-effects map, so the effect-registration
API contradicts the claim. -/
theorem addEffect_no_context_mutates :
    addEffect 7 ⟨true⟩ ⟨none, none, [], [], [], [], [], []⟩ =
      (⟨none, none, [(7, ⟨true⟩)], [], [], [], [], []⟩, .ok ()) := rfl

/-- C2 (amended): a read through the reactive view returns the value
`Reflect.get` yields, and records the (host, p) pair into the global
read-set exactly when p is an own enumerable property — whether a data
property or an accessor — regardless of any tracking session: recording
consults no ambient state and happens even with no context set. -/
theorem proxyGet_spec (target : HostObj) (p : Nat) (s : GlobalState) :
    (proxyGet target p s).2 = reflectGet target p ∧
      (∀ d, getOwnPropertyDesc target p = some d → d.enumerable = true →
        depsKeysOf (proxyGet target p s).1.depsMap target.id =
          setAdd p (depsKeysOf s.depsMap target.id) ∧
        ∀ obj, obj ≠ target.id →
          depsKeysOf (proxyGet target p s).1.depsMap obj = depsKeysOf s.depsMap obj) ∧
      (∀ d, getOwnPropertyDesc target p = some d → d.enumerable = false →
        (proxyGet target p s).1 = s) ∧
      (getOwnPropertyDesc target p = none → (proxyGet target p s).1 = s) ∧
      (proxyGet target p { s with activeContext := none }).1.depsMap =
        (proxyGet target p s).1.depsMap := by
  refine ⟨?_, ?_, ?_, ?_, ?_⟩
  · unfold proxyGet
    cases h : getOwnPropertyDesc target p with
    | some d => by_cases he : d.enumerable <;> simp [he]
    | none => simp
  · intro d hd he
    refine ⟨?_, ?_⟩
    · simp [proxyGet, hd, he, depsKeysOf_addDeps_self]
    · intro obj hobj
      simp [proxyGet, hd, he, depsKeysOf_addDeps_ne _ _ _ _ hobj]
  · intro d hd he
    simp [proxyGet, hd, he]
  · intro hd
    simp [proxyGet, hd]
  · unfold proxyGet
    cases h : getOwnPropertyDesc target p with
    | some d => by_cases he : d.enumerable <;> simp [he]
    | none => simp

/-- Witness for C2 at a concrete data property read. -/
theorem proxyGet_spec_witness :
    depsKeysOf
        (proxyGet ⟨0, [(3, ⟨5, true, true, true, false⟩)], []⟩ 3
          ⟨none, none, [], [], [], [], [], []⟩).1.depsMap 0 =
      setAdd 3 (depsKeysOf
        (⟨none, none, [], [], [], [], [], []⟩ : GlobalState).depsMap 0) :=
  ((proxyGet_spec ⟨0, [(3, ⟨5, true, true, true, false⟩)], []⟩ 3
    ⟨none, none, [], [], [], [], [], []⟩).2.1 ⟨5, true, true, true, false⟩ rfl rfl).1

/-- C2 counterexample: with no ambient context (hence no tracking session in
any sense) a read of an own enumerable accessor-defined property is still
recorded into the global read-set, contradicting both restrictions of the
claim. -/
theorem proxyGet_records_accessor_without_session :
    (proxyGet ⟨0, [(0, ⟨5, true, false, false, true⟩)], []⟩ 0
        ⟨none, none, [], [], [], [], [], []⟩).1.depsMap = [(0, [0])] ∧
      (getOwnPropertyDesc ⟨0, [(0, ⟨5, true, false, false, true⟩)], []⟩ 0).map
          PropDesc.accessor = some true ∧
      (⟨none, none, [], [], [], [], [], []⟩ : GlobalState).activeContext = none := by
  decide

/-- C4 (amended): the composition runtime performs no validation of an
effect callback's return value: `runEffect` always succeeds and stores the
returned value in the cleanup bucket, raising no eager bad-return-type
error.  The consequence is deferred to release time: releasing a falsy
value or a truthy object lacking an `unsubscribe` member is a silent
no-op, while releasing a truthy primitive throws a TypeError (from the
`in` operator), not an InvalidEffectReturnError.  The eager
bad-return-type error exists only in the deprecated decorator API, which
throws it exactly for plain return values that are neither teardown logic
nor `undefined`. -/
theorem effect_return_value_handling :
    (∀ (effRet : Nat → Teardown) (effReads : Nat → List (Nat × Nat)) (host eff : Nat)
        (opts : EffectOptions) (s : GlobalState),
      (runEffect effRet effReads host eff opts s).2 = .ok () ∧
        effRet eff ∈ bucketOf (runEffect effRet effReads host eff opts s).1 host) ∧
      (∀ v, unsubscribe (.value v) = .error .typeError) ∧
      (∀ id, unsubscribe (.obj id) = .ok none) ∧
      unsubscribe .nullv = .ok none ∧ unsubscribe .undef = .ok none ∧
      (∀ r, classifyDeprecatedReturn r = .error .badReturnType ↔
        ∃ t, r = .ret t ∧ isTeardownLogic t = false ∧ t ≠ .undef) := by
  refine ⟨?_, fun v => rfl, fun id => rfl, rfl, rfl, ?_⟩
  · intro effRet effReads host eff opts s
    refine ⟨rfl, ?_⟩
    rw [runEffect_bucket_self]
    exact mem_setAddT_self _ _
  · intro r
    cases r with
    | ret t => cases t <;> simp [classifyDeprecatedReturn, isTeardownLogic]
    | observable id => simp [classifyDeprecatedReturn]

/-- Witness for C4: a concrete effect returning the plain number 42 runs
with no error and the invalid value sits in the bucket — the failure, a
TypeError, comes only when the stored value is later released. -/
theorem effect_return_value_handling_witness :
    (runEffect (fun _ => .value 42) (fun _ => []) 1 7 ⟨false⟩
        ⟨some 1, none, [(7, ⟨false⟩)], [], [], [], [(1, [])], []⟩).2 = .ok () ∧
      Teardown.value 42 ∈ bucketOf (runEffect (fun _ => .value 42) (fun _ => []) 1 7 ⟨false⟩
        ⟨some 1, none, [(7, ⟨false⟩)], [], [], [], [(1, [])], []⟩).1 1 :=
  effect_return_value_handling.1 (fun _ => .value 42) (fun _ => []) 1 7 ⟨false⟩
    ⟨some 1, none, [(7, ⟨false⟩)], [], [], [], [(1, [])], []⟩

/-- C4 counterexample: running an effect whose callback returns the plain
value 42 — neither a function, nor an unsubscribable, nor `undefined` —
succeeds with no error at all in connect.ts at the moment the callback
returns; the invalid value is stored as a teardown, and what eventually
fails is its release, with a TypeError rather than the claimed eager
InvalidEffectReturnError. -/
theorem invalid_return_value_accepted :
    runEffect (fun _ => .value 42) (fun _ => []) 1 7 ⟨false⟩
        ⟨some 1, none, [(7, ⟨false⟩)], [], [], [], [(1, [])], []⟩ =
      (⟨some 1, none, [], [], [], [], [(1, [.value 42])], [(7, [])]⟩, .ok ()) ∧
      unsubscribe (.value 42) = .error .typeError ∧
      unsubscribe (.value 42) ≠ .error .badReturnType :=
  ⟨rfl, rfl, fun h => NgError.noConfusion (Except.error.inj h)⟩

/-- C9 (amended): hook sets (and the cleanup buckets keyed alongside them)
are exclusively owned per host, but the pending-effects queue is process-
global: whichever host's `runEffects` runs next drains every pending
registration — whatever the ambient context was at registration time — into
its own cleanup bucket, leaving other hosts' buckets untouched. -/
theorem host_state_ownership (effRet : Nat → Teardown)
    (effReads : Nat → List (Nat × Nat)) (host : Nat) (s : GlobalState) :
    (runEffects effRet effReads host s).effects = [] ∧
      (∀ pe ∈ s.effects,
        effRet pe.1 ∈ bucketOf (runEffects effRet effReads host s) host) ∧
      (∀ h', h' ≠ host →
        bucketOf (runEffects effRet effReads host s) h' = bucketOf s h') ∧
      (∀ A fn lc, s.activeContext = some A →
        ∀ B, B ≠ A → mapGet B (addHook fn lc s).1.hooksMap = mapGet B s.hooksMap) := by
  refine ⟨?_, ?_, ?_, ?_⟩
  · exact runEffectsGo_effects _ _ _ _ _ rfl
  · intro pe hpe
    exact runEffectsGo_consumes _ _ _ _ _ pe hpe
  · intro h' hne
    exact runEffectsGo_bucket_ne _ _ _ _ hne _ _
  · intro A fn lc hA B hB
    simp only [addHook, hA]
    cases hm : mapGet A s.hooksMap with
    | none => simp
    | some perPhase =>
      cases hp : mapGet lc perPhase with
      | none => simp [hp]
      | some hooks => simp [hp, mapGet_mapSet_ne _ _ _ _ hB]

/-- Witness for C9: host 2 drains a queue holding effect 7 into its own
bucket, and hook registration under host 1 leaves host 2's hook map
untouched. -/
theorem host_state_ownership_witness :
    (runEffects (fun _ => .func 99) (fun _ => []) 2
        ⟨some 1, none, [(7, ⟨false⟩)], [], [], [(1, [(0, [])]), (2, [(0, [])])],
          [(1, []), (2, [])], []⟩).effects = [] ∧
      Teardown.func 99 ∈ bucketOf (runEffects (fun _ => .func 99) (fun _ => []) 2
        ⟨some 1, none, [(7, ⟨false⟩)], [], [], [(1, [(0, [])]), (2, [(0, [])])],
          [(1, []), (2, [])], []⟩) 2 ∧
      mapGet 2 (addHook 5 0
        ⟨some 1, none, [(7, ⟨false⟩)], [], [], [(1, [(0, [])]), (2, [(0, [])])],
          [(1, []), (2, [])], []⟩).1.hooksMap = some [(0, [])] := by
  have h := host_state_ownership (fun _ => .func 99) (fun _ => [])
    2 ⟨some 1, none, [(7, ⟨false⟩)], [], [], [(1, [(0, [])]), (2, [(0, [])])],
      [(1, []), (2, [])], []⟩
  exact ⟨h.1, h.2.1 (7, ⟨false⟩) (by decide), by
    rw [h.2.2.2 1 5 0 rfl 2 (by decide)]; decide⟩

namespace Invalidate

theorem length_getCurrentValues (store : Store) (deps : List ObjKey) :
    (getCurrentValues store deps).length = deps.length := by
  simp [getCurrentValues]

theorem eq_of_not_valuesDiffer : ∀ (previous current : List Nat),
    current.length = previous.length → valuesDiffer previous current = false →
    current = previous := by
  intro previous
  induction previous with
  | nil =>
    intro current hl _
    cases current with
    | nil => rfl
    | cons c cs => simp at hl
  | cons p ps ih =>
    intro current hl hd
    cases current with
    | nil => simp at hl
    | cons c cs =>
      have hd' : ((c != p) || valuesDiffer ps cs) = false := hd
      rcases Bool.or_eq_false_iff.mp hd' with ⟨h1, h2⟩
      have hc : c = p := by simpa using h1
      have hcs : cs = ps := ih cs (by simpa using hl) h2
      rw [hc, hcs]

theorem scanPass_cons (store : Store) (e : Entry) (rest : List Entry) (c : List Nat) :
    scanPass store (e :: rest) c =
      if (getCurrentValues store e.deps).length ≠ e.prev.length then
        (rest, c.erase e.teardown, [e], [Ev.release e.teardown])
      else if valuesDiffer e.prev (getCurrentValues store e.deps) then
        ((scanPass store rest (c.erase e.teardown)).1,
         (scanPass store rest (c.erase e.teardown)).2.1,
         e :: (scanPass store rest (c.erase e.teardown)).2.2.1,
         Ev.release e.teardown :: (scanPass store rest (c.erase e.teardown)).2.2.2)
      else
        ({ e with prev := getCurrentValues store e.deps } :: (scanPass store rest c).1,
         (scanPass store rest c).2.1,
         (scanPass store rest c).2.2.1,
         (scanPass store rest c).2.2.2) := rfl

theorem scanPass_eq (store : Store) : ∀ (entries : List Entry) (c : List Nat),
    (∀ e ∈ entries, e.prev.length = e.deps.length) →
    scanPass store entries c =
      (entries.filter (fun e => !markCond store e),
       (entries.filter (markCond store)).foldl (fun cc e => cc.erase e.teardown) c,
       entries.filter (markCond store),
       (entries.filter (markCond store)).map fun e => Ev.release e.teardown) := by
  intro entries
  induction entries with
  | nil => intro c _; simp [scanPass]
  | cons e rest ih =>
    intro c hlen
    have hle : e.prev.length = e.deps.length := hlen e (List.mem_cons_self e rest)
    have hcur : (getCurrentValues store e.deps).length = e.prev.length := by
      rw [length_getCurrentValues, hle]
    have hlen' : ∀ x ∈ rest, x.prev.length = x.deps.length :=
      fun x hx => hlen x (List.mem_cons_of_mem e hx)
    have hnb : ¬(getCurrentValues store e.deps).length ≠ e.prev.length := by
      simp [hcur]
    rw [scanPass_cons, if_neg hnb]
    by_cases hd : valuesDiffer e.prev (getCurrentValues store e.deps)
    · have hmc : markCond store e = true := by simp [markCond, hd]
      rw [if_pos hd, ih _ hlen']
      simp [List.filter_cons, hmc]
    · have hmc : markCond store e = false := by simp [markCond, hcur, hd]
      have hprev : getCurrentValues store e.deps = e.prev :=
        eq_of_not_valuesDiffer e.prev (getCurrentValues store e.deps) hcur
          (Bool.not_eq_true _ ▸ eq_false_of_ne_true (by simpa using hd))
      rw [if_neg (by simpa using hd), ih _ hlen']
      simp [List.filter_cons, hmc, hprev]

/-- C1: under the snapshot invariant established by `runEffect` — the stored
previous-values array has exactly one value per snapshot pair — an
invalidation pass examines every invalidation entry of the host in
registration order, recomputing the current value of every (object, key)
pair of its snapshot and comparing element-wise, and it marks (invalidates)
exactly the entries whose pair count changed or in which some single value
differs; no entry is skipped because an earlier entry in the same pass was
marked: the kept and marked entries are the complementary filters of the
whole entry list, and one release fires per marked entry in order.  (Under
the invariant the pair-count branch, whose `break` would skip the remaining
entries, is unreachable.) -/
theorem invalidation_pass_examines_every_entry (store : Store) (entries : List Entry)
    (c : List Nat) (hlen : ∀ e ∈ entries, e.prev.length = e.deps.length) :
    (scanPass store entries c).1 = entries.filter (fun e => !markCond store e) ∧
      (scanPass store entries c).2.2.1 = entries.filter (markCond store) ∧
      (scanPass store entries c).2.2.2 =
        (entries.filter (markCond store)).map (fun e => Ev.release e.teardown) := by
  rw [scanPass_eq store entries c hlen]
  exact ⟨rfl, rfl, rfl⟩

/-- Witness for C1: two entries watching the same changed pair — both are
marked; the second is examined even though the first was already marked. -/
theorem invalidation_pass_examines_every_entry_witness :
    (scanPass (fun _ => 1) [⟨1, [(0, 0)], [0], 10⟩, ⟨2, [(0, 0)], [0], 11⟩]
        [10, 11]).2.2.1 =
      [⟨1, [(0, 0)], [0], 10⟩, ⟨2, [(0, 0)], [0], 11⟩] := by
  have h := invalidation_pass_examines_every_entry (fun _ => 1)
    [⟨1, [(0, 0)], [0], 10⟩, ⟨2, [(0, 0)], [0], 11⟩] [10, 11] (by decide)
  rw [h.2.1]
  decide

/-- The snapshot invariant holds for every entry `runEffect` creates: the
previous values are the current values of the captured pairs, one each. -/
theorem runEffectE_preserves_lengths (store : Store) (effRead : Nat → List ObjKey)
    (watch : Nat → Bool) (eff : Nat) (s : EngineState)
    (h : ∀ e ∈ s.entries, e.prev.length = e.deps.length) :
    ∀ e ∈ (runEffectE store effRead watch eff s).1.entries,
      e.prev.length = e.deps.length := by
  intro e he
  simp only [runEffectE, List.mem_append, List.mem_singleton] at he
  rcases he with he | he
  · exact h e he
  · subst he
    simp [length_getCurrentValues]

theorem runMarked_preserves_lengths (store : Store) (effRead : Nat → List ObjKey)
    (watch : Nat → Bool) : ∀ (m : List Entry) (s : EngineState),
    (∀ e ∈ s.entries, e.prev.length = e.deps.length) →
    ∀ e ∈ (runMarked store effRead watch m s).1.entries,
      e.prev.length = e.deps.length := by
  intro m
  induction m with
  | nil => intro s h; exact h
  | cons x rest ih =>
    intro s h
    exact ih (runEffectE store effRead watch x.effect s).1
      (runEffectE_preserves_lengths store effRead watch x.effect s h)

/-- The snapshot invariant is preserved across a whole invalidation pass:
kept entries satisfy it by assumption and re-created entries by
construction, so the hypothesis of the C1 theorem holds in every state
reachable through the engine. -/
theorem invalidateEffects_preserves_lengths (store : Store)
    (effRead : Nat → List ObjKey) (watch : Nat → Bool) (s : EngineState)
    (h : ∀ e ∈ s.entries, e.prev.length = e.deps.length) :
    ∀ e ∈ (invalidateEffects store effRead watch s).1.entries,
      e.prev.length = e.deps.length := by
  refine runMarked_preserves_lengths store effRead watch
    (scanPass store s.entries s.cleanup).2.2.1
    { s with entries := (scanPass store s.entries s.cleanup).1,
             cleanup := (scanPass store s.entries s.cleanup).2.1 } ?_
  intro x hx
  simp only [scanPass_eq store s.entries s.cleanup h] at hx
  exact h x (List.mem_of_mem_filter hx)

theorem scanPass_marked_sublist (store : Store) : ∀ (l : List Entry) (c : List Nat),
    List.Sublist (scanPass store l c).2.2.1 l := by
  intro l
  induction l with
  | nil => intro c; simp [scanPass]
  | cons e rest ih =>
    intro c
    rw [scanPass_cons]
    by_cases hb : (getCurrentValues store e.deps).length ≠ e.prev.length
    · rw [if_pos hb]
      exact (List.nil_sublist rest).cons₂ e
    · rw [if_neg hb]
      by_cases hd : valuesDiffer e.prev (getCurrentValues store e.deps)
      · rw [if_pos hd]
        exact (ih _).cons₂ e
      · rw [if_neg hd]
        exact (ih _).cons e

theorem scanPass_events_eq (store : Store) : ∀ (l : List Entry) (c : List Nat),
    (scanPass store l c).2.2.2 =
      ((scanPass store l c).2.2.1).map (fun e => Ev.release e.teardown) := by
  intro l
  induction l with
  | nil => intro c; simp [scanPass]
  | cons e rest ih =>
    intro c
    rw [scanPass_cons]
    by_cases hb : (getCurrentValues store e.deps).length ≠ e.prev.length
    · rw [if_pos hb]
      simp
    · rw [if_neg hb]
      by_cases hd : valuesDiffer e.prev (getCurrentValues store e.deps)
      · rw [if_pos hd]
        simp [ih]
      · rw [if_neg hd]
        simp [ih]

theorem scanPass_td_perm (store : Store) : ∀ (l : List Entry) (c : List Nat),
    (((scanPass store l c).1 ++ (scanPass store l c).2.2.1).map Entry.teardown).Perm
      (l.map Entry.teardown) := by
  intro l
  induction l with
  | nil => intro c; simp [scanPass]
  | cons e rest ih =>
    intro c
    rw [scanPass_cons]
    by_cases hb : (getCurrentValues store e.deps).length ≠ e.prev.length
    · rw [if_pos hb]
      simp [List.perm_append_singleton]
    · rw [if_neg hb]
      by_cases hd : valuesDiffer e.prev (getCurrentValues store e.deps)
      · rw [if_pos hd]
        simp only [List.map_append, List.map_cons]
        refine List.perm_middle.trans (List.Perm.cons _ ?_)
        rw [← List.map_append]
        exact ih (c.erase e.teardown)
      · rw [if_neg hd]
        simp only [List.map_append, List.map_cons]
        refine List.Perm.cons _ ?_
        simpa [List.append_eq, ← List.map_append] using ih c

theorem runMarked_trace_cons (store : Store) (er : Nat → List ObjKey)
    (w : Nat → Bool) (x : Entry) (rest : List Entry) (s : EngineState) :
    (runMarked store er w (x :: rest) s).2 =
      Ev.rerun x.effect s.fresh ::
        (runMarked store er w rest (runEffectE store er w x.effect s).1).2 := rfl

theorem runMarked_count (store : Store) (er : Nat → List ObjKey) (w : Nat → Bool)
    (eff : Nat) : ∀ (m : List Entry) (s : EngineState),
    ((runMarked store er w m s).2.filter (isRerunOf eff)).length =
      (m.map Entry.effect).count eff := by
  intro m
  induction m with
  | nil => intro s; simp [runMarked]
  | cons x rest ih =>
    intro s
    rw [runMarked_trace_cons]
    by_cases hx : x.effect = eff
    · simp [List.filter_cons, isRerunOf, hx, ih, List.count_cons]
    · simp [List.filter_cons, isRerunOf, hx, ih, List.count_cons]

theorem runMarked_ev_shape (store : Store) (er : Nat → List ObjKey) (w : Nat → Bool) :
    ∀ (m : List Entry) (s : EngineState), ∀ ev ∈ (runMarked store er w m s).2,
    ∃ f t, ev = Ev.rerun f t ∧ s.fresh ≤ t := by
  intro m
  induction m with
  | nil => intro s ev hev; simp [runMarked] at hev
  | cons x rest ih =>
    intro s ev hev
    rw [runMarked_trace_cons] at hev
    rcases List.mem_cons.mp hev with h | h
    · exact ⟨x.effect, s.fresh, h, Nat.le_refl _⟩
    · obtain ⟨f, t, heq, hle⟩ := ih _ ev h
      refine ⟨f, t, heq, ?_⟩
      have : s.fresh + 1 ≤ t := hle
      omega

theorem runMarked_exists_rerun (store : Store) (er : Nat → List ObjKey)
    (w : Nat → Bool) : ∀ (m : List Entry) (s : EngineState) (e : Entry), e ∈ m →
    ∃ t, Ev.rerun e.effect t ∈ (runMarked store er w m s).2 := by
  intro m
  induction m with
  | nil => intro s e he; simp at he
  | cons x rest ih =>
    intro s e he
    rw [runMarked_trace_cons]
    rcases List.mem_cons.mp he with rfl | h
    · exact ⟨s.fresh, List.mem_cons_self _ _⟩
    · obtain ⟨t, ht⟩ := ih _ e h
      exact ⟨t, List.mem_cons_of_mem _ ht⟩

theorem applyEvs_append (c : List Nat) (a b : List Ev) :
    applyEvs c (a ++ b) = applyEvs (applyEvs c a) b := by
  simp [applyEvs, List.foldl_append]

theorem mem_setAdd_iff (x t : Nat) (l : List Nat) :
    x ∈ setAdd t l ↔ x = t ∨ x ∈ l := by
  unfold setAdd
  split
  · rename_i hmem
    constructor
    · intro h
      exact Or.inr h
    · rintro (rfl | h)
      · exact hmem
      · exact h
  · simp [or_comm]

theorem applyEvs_release_subset : ∀ (evs : List Ev) (c : List Nat),
    (∀ ev ∈ evs, isRelease ev = true) → applyEvs c evs ⊆ c := by
  intro evs
  induction evs with
  | nil =>
    intro c _
    simp [applyEvs]
  | cons ev rest ih =>
    intro c hall
    have h1 := hall ev (List.mem_cons_self _ _)
    cases ev with
    | release t =>
      have hstep : applyEvs c (Ev.release t :: rest) = applyEvs (c.erase t) rest := rfl
      rw [hstep]
      exact (ih _ fun e he => hall e (List.mem_cons_of_mem _ he)).trans
        (List.erase_subset _ _)
    | rerun f t => simp [isRelease] at h1

theorem applyEvs_map_release : ∀ (xs : List Nat) (c : List Nat),
    applyEvs c (xs.map Ev.release) = xs.foldl List.erase c := by
  intro xs
  induction xs with
  | nil => intro c; rfl
  | cons x rest ih =>
    intro c
    have hstep : applyEvs c ((x :: rest).map Ev.release) =
        applyEvs (c.erase x) (rest.map Ev.release) := rfl
    rw [hstep, ih]
    rfl

theorem foldl_erase_subset : ∀ (xs : List Nat) (c : List Nat),
    xs.foldl List.erase c ⊆ c := by
  intro xs
  induction xs with
  | nil => intro c; exact fun a h => h
  | cons x rest ih =>
    intro c
    exact (ih _).trans (List.erase_subset _ _)

theorem not_mem_foldl_erase (x : Nat) : ∀ (xs : List Nat) (c : List Nat),
    c.Nodup → x ∈ xs → x ∉ xs.foldl List.erase c := by
  intro xs
  induction xs with
  | nil => intro c _ hx; simp at hx
  | cons y rest ih =>
    intro c hnd hx
    rcases List.mem_cons.mp hx with rfl | hx'
    · intro hmem
      have hsub := foldl_erase_subset rest (c.erase x) hmem
      rw [List.Nodup.mem_erase_iff hnd] at hsub
      exact hsub.1 rfl
    · exact ih (c.erase y) (hnd.erase _) hx'

theorem not_mem_applyEvs (x : Nat) : ∀ (evs : List Ev) (c : List Nat), x ∉ c →
    (∀ f t, Ev.rerun f t ∈ evs → t ≠ x) → x ∉ applyEvs c evs := by
  intro evs
  induction evs with
  | nil =>
    intro c hx _
    simpa [applyEvs] using hx
  | cons ev rest ih =>
    intro c hx hadd
    cases ev with
    | release t =>
      refine ih _ ?_ fun f t' h => hadd f t' (List.mem_cons_of_mem _ h)
      intro hmem
      exact hx (List.erase_subset _ _ (show x ∈ c.erase t from hmem))
    | rerun f t =>
      refine ih _ ?_ fun f' t' h => hadd f' t' (List.mem_cons_of_mem _ h)
      intro hmem
      rcases (mem_setAdd_iff x t c).mp (show x ∈ setAdd t c from hmem) with h | h
      · exact absurd h.symm (hadd f t (List.mem_cons_self _ _))
      · exact hx h

/-- C3: for every entry marked (invalidated) during an invalidation pass of
a well-formed engine state: its effect is re-run exactly once in that pass;
its old invalidation entry is gone from the registered entries the moment
the scan finishes (before any rerun executes); the trace splits into a
release-only phase containing the release of its old teardown followed by
the rerun phase containing its rerun — so the old artifact is released and
the entry removed before `runEffect` is called again; and at no intermediate
point of the pass does the cleanup bucket hold the old and the new teardown
simultaneously. -/
theorem marked_effect_rerun_semantics (store : Store) (effRead : Nat → List ObjKey)
    (watch : Nat → Bool) (s : EngineState) (hwf : wf s) :
    ∀ e ∈ (scanPass store s.entries s.cleanup).2.2.1,
      ((invalidateEffects store effRead watch s).2.filter (isRerunOf e.effect)).length
          = 1 ∧
      (∀ e' ∈ (scanPass store s.entries s.cleanup).1, e'.teardown ≠ e.teardown) ∧
      (∃ l1 l2, (invalidateEffects store effRead watch s).2 = l1 ++ l2 ∧
        (∀ ev ∈ l1, isRelease ev = true) ∧ Ev.release e.teardown ∈ l1 ∧
        ∃ t', Ev.rerun e.effect t' ∈ l2) ∧
      (∀ t', Ev.rerun e.effect t' ∈ (invalidateEffects store effRead watch s).2 →
        ∀ n, ¬(e.teardown ∈ applyEvs s.cleanup
                ((invalidateEffects store effRead watch s).2.take n) ∧
            t' ∈ applyEvs s.cleanup
                ((invalidateEffects store effRead watch s).2.take n))) := by
  obtain ⟨hndc, hbound, hndtd, htdmem, hndeff⟩ := hwf
  intro e he
  have htr : (invalidateEffects store effRead watch s).2 =
      (scanPass store s.entries s.cleanup).2.2.2 ++
        (runMarked store effRead watch (scanPass store s.entries s.cleanup).2.2.1
          { s with entries := (scanPass store s.entries s.cleanup).1,
                   cleanup := (scanPass store s.entries s.cleanup).2.1 }).2 := rfl
  have hscEv := scanPass_events_eq store s.entries s.cleanup
  have hsub := scanPass_marked_sublist store s.entries s.cleanup
  have hmemE : e ∈ s.entries := hsub.subset he
  have hetd : e.teardown ∈ s.cleanup := htdmem e hmemE
  have hlt : e.teardown < s.fresh := hbound _ hetd
  have hmeffnd : ((scanPass store s.entries s.cleanup).2.2.1.map Entry.effect).Nodup :=
    hndeff.sublist (hsub.map _)
  refine ⟨?_, ?_, ?_, ?_⟩
  · rw [htr, List.filter_append]
    have h0 : (scanPass store s.entries s.cleanup).2.2.2.filter
        (isRerunOf e.effect) = [] := by
      rw [hscEv]
      refine List.filter_eq_nil_iff.mpr ?_
      intro ev hev
      obtain ⟨x, _, rfl⟩ := List.mem_map.mp hev
      simp [isRerunOf]
    rw [h0, List.nil_append, runMarked_count]
    have h1 := List.nodup_iff_count_le_one.mp hmeffnd e.effect
    have h2 : 0 < ((scanPass store s.entries s.cleanup).2.2.1.map Entry.effect).count
        e.effect := List.count_pos_iff.mpr (List.mem_map_of_mem _ he)
    omega
  · intro e' he' heq
    have hperm := scanPass_td_perm store s.entries s.cleanup
    have hnd2 : (((scanPass store s.entries s.cleanup).1 ++
        (scanPass store s.entries s.cleanup).2.2.1).map Entry.teardown).Nodup :=
      hperm.nodup_iff.mpr hndtd
    rw [List.map_append] at hnd2
    have hdisj := List.disjoint_of_nodup_append hnd2
    exact hdisj (List.mem_map_of_mem _ he')
      (by rw [heq]; exact List.mem_map_of_mem _ he)
  · refine ⟨(scanPass store s.entries s.cleanup).2.2.2, _, htr, ?_, ?_, ?_⟩
    · intro ev hev
      rw [hscEv] at hev
      obtain ⟨x, _, rfl⟩ := List.mem_map.mp hev
      rfl
    · rw [hscEv]
      exact List.mem_map_of_mem _ he
    · exact runMarked_exists_rerun store effRead watch _ _ e he
  · intro t' ht' n
    have ht'run : Ev.rerun e.effect t' ∈
        (runMarked store effRead watch (scanPass store s.entries s.cleanup).2.2.1
          { s with entries := (scanPass store s.entries s.cleanup).1,
                   cleanup := (scanPass store s.entries s.cleanup).2.1 }).2 := by
      rw [htr] at ht'
      rcases List.mem_append.mp ht' with h | h
      · rw [hscEv] at h
        obtain ⟨x, _, hx⟩ := List.mem_map.mp h
        exact absurd hx (by simp)
      · exact h
    have ht'fresh : s.fresh ≤ t' := by
      obtain ⟨f, t0, heq, hle⟩ := runMarked_ev_shape store effRead watch _ _ _ ht'run
      cases heq
      exact hle
    rintro ⟨hold, hnew⟩
    rw [htr, List.take_append_eq_append_take, applyEvs_append] at hold hnew
    by_cases hn : n ≤ (scanPass store s.entries s.cleanup).2.2.2.length
    · rw [Nat.sub_eq_zero_of_le hn, List.take_zero] at hnew
      have hsubc : applyEvs s.cleanup
          ((scanPass store s.entries s.cleanup).2.2.2.take n) ⊆ s.cleanup := by
        refine applyEvs_release_subset _ _ ?_
        intro ev hev
        have hev' := List.take_subset _ _ hev
        rw [hscEv] at hev'
        obtain ⟨x, _, rfl⟩ := List.mem_map.mp hev'
        rfl
      have := hbound _ (hsubc (by simpa [applyEvs] using hnew))
      omega
    · push_neg at hn
      have hfull : (scanPass store s.entries s.cleanup).2.2.2.take n =
          (scanPass store s.entries s.cleanup).2.2.2 :=
        List.take_of_length_le (Nat.le_of_lt hn)
      rw [hfull] at hold
      have h1 : e.teardown ∉
          applyEvs s.cleanup (scanPass store s.entries s.cleanup).2.2.2 := by
        rw [hscEv]
        have hmm : (scanPass store s.entries s.cleanup).2.2.1.map
            (fun x => Ev.release x.teardown) =
            ((scanPass store s.entries s.cleanup).2.2.1.map Entry.teardown).map
              Ev.release := by
          rw [List.map_map]
          rfl
        rw [hmm, applyEvs_map_release]
        exact not_mem_foldl_erase _ _ _ hndc (List.mem_map_of_mem _ he)
      refine (not_mem_applyEvs e.teardown _ _ h1 ?_) hold
      intro f t0 hmem heqt
      have hmem' := List.take_subset _ _ hmem
      obtain ⟨f', t1, heq2, hle⟩ := runMarked_ev_shape store effRead watch _ _ _ hmem'
      cases heq2
      have hge : s.fresh ≤ t0 := hle
      omega

/-- Witness for C3: one watched entry whose tracked value changed is marked
and its effect re-run exactly once in the pass. -/
theorem marked_effect_rerun_semantics_witness :
    ((invalidateEffects (fun _ => 1) (fun _ => [(0, 0)]) (fun _ => true)
        ⟨[⟨1, [(0, 0)], [0], 10⟩], [10], 20⟩).2.filter (isRerunOf 1)).length = 1 :=
  (marked_effect_rerun_semantics (fun _ => 1) (fun _ => [(0, 0)]) (fun _ => true)
    ⟨[⟨1, [(0, 0)], [0], 10⟩], [10], 20⟩
    ⟨by decide, by decide, by decide, by decide, by decide⟩
    ⟨1, [(0, 0)], [0], 10⟩ (by decide)).1

end Invalidate

namespace Sched

theorem drainGo_cons (p : Phase) (eff : Nat) (rest : List Nat) (b : Bus) :
    drainGo p (eff :: rest) b =
      ((drainGo p rest
          { b with fresh := b.fresh + 1,
                   parts := updateBucket p (setAdd b.fresh) b.parts }).1,
       Ev.effectRun eff p b.fresh ::
        (drainGo p rest
          { b with fresh := b.fresh + 1,
                   parts := updateBucket p (setAdd b.fresh) b.parts }).2) := rfl

theorem runHooksGo_cons (hr : Nat → List Nat) (p : Phase) (h : Nat)
    (rest : List Nat) (b : Bus) :
    runHooksGo hr p (h :: rest) b =
      ((runHooksGo hr p rest (runInCtx (some p) (hookBody hr p h) b).1).1,
       (runInCtx (some p) (hookBody hr p h) b).2 ++
        (runHooksGo hr p rest (runInCtx (some p) (hookBody hr p h) b).1).2) := rfl

theorem flushBucket_flags (p : Phase) (b : Bus) :
    (flushBucket p b).1.changed = b.changed ∧ (flushBucket p b).1.closed = b.closed ∧
    ∀ ev ∈ (flushBucket p b).2, hookLayerEv ev = true := by
  refine ⟨rfl, rfl, ?_⟩
  intro ev hev
  obtain ⟨t, _, rfl⟩ := List.mem_map.mp hev
  rfl

theorem drainGo_flags (p : Phase) : ∀ (l : List Nat) (b : Bus),
    (drainGo p l b).1.changed = b.changed ∧ (drainGo p l b).1.closed = b.closed ∧
    ∀ ev ∈ (drainGo p l b).2, hookLayerEv ev = true := by
  intro l
  induction l with
  | nil =>
    intro b
    exact ⟨rfl, rfl, by intro ev hev; simp [drainGo] at hev⟩
  | cons eff rest ih =>
    intro b
    rw [drainGo_cons]
    refine ⟨(ih _).1, (ih _).2.1, ?_⟩
    intro ev hev
    rcases List.mem_cons.mp hev with rfl | h
    · rfl
    · exact (ih _).2.2 ev h

theorem hookBody_flags (hr : Nat → List Nat) (p : Phase) (h : Nat) (b : Bus) :
    (hookBody hr p h b).1.changed = b.changed ∧
    (hookBody hr p h b).1.closed = b.closed ∧
    ∀ ev ∈ (hookBody hr p h b).2, hookLayerEv ev = true := by
  unfold hookBody drainEffects
  refine ⟨(drainGo_flags p _ _).1, (drainGo_flags p _ _).2.1, ?_⟩
  intro ev hev
  rcases List.mem_cons.mp hev with rfl | hev
  · rfl
  rcases List.mem_cons.mp hev with rfl | hev
  · rfl
  rcases List.mem_append.mp hev with hev | hev
  · exact (drainGo_flags p _ _).2.2 ev hev
  · rcases List.mem_singleton.mp hev with rfl
    rfl

theorem runInCtx_flags (lc : Option Phase) (f : Bus → Bus × List Ev) (b : Bus) :
    (runInCtx lc f b).1.changed =
        (f { b with active := true, lc := lc }).1.changed ∧
      (runInCtx lc f b).1.closed = (f { b with active := true, lc := lc }).1.closed ∧
      (runInCtx lc f b).2 = (f { b with active := true, lc := lc }).2 :=
  ⟨rfl, rfl, rfl⟩

theorem runHooksGo_flags (hr : Nat → List Nat) (p : Phase) : ∀ (hs : List Nat) (b : Bus),
    (runHooksGo hr p hs b).1.changed = b.changed ∧
    (runHooksGo hr p hs b).1.closed = b.closed ∧
    ∀ ev ∈ (runHooksGo hr p hs b).2, hookLayerEv ev = true := by
  intro hs
  induction hs with
  | nil =>
    intro b
    exact ⟨rfl, rfl, by intro ev hev; simp [runHooksGo] at hev⟩
  | cons h rest ih =>
    intro b
    rw [runHooksGo_cons]
    have hbody := hookBody_flags hr p h { b with active := true, lc := some p }
    refine ⟨?_, ?_, ?_⟩
    · rw [(ih _).1, (runInCtx_flags _ _ _).1, hbody.1]
    · rw [(ih _).2.1, (runInCtx_flags _ _ _).2.1, hbody.2.1]
    · intro ev hev
      rcases List.mem_append.mp hev with hev | hev
      · rw [(runInCtx_flags _ _ _).2.2] at hev
        exact hbody.2.2 ev hev
      · exact (ih _).2.2 ev hev

theorem deliverGo_flags (hr : Nat → List Nat) (lc : Phase) :
    ∀ (subs : List (Phase × List Nat)) (b : Bus),
    (deliverGo hr lc subs b).1.changed = b.changed ∧
    (deliverGo hr lc subs b).1.closed = b.closed ∧
    ∀ ev ∈ (deliverGo hr lc subs b).2, hookLayerEv ev = true := by
  intro subs
  induction subs with
  | nil =>
    intro b
    exact ⟨rfl, rfl, by intro ev hev; simp [deliverGo] at hev⟩
  | cons sub rest ih =>
    intro b
    obtain ⟨p, hks⟩ := sub
    by_cases hp : p = lc
    · rw [show deliverGo hr lc ((p, hks) :: rest) b =
          ((deliverGo hr lc rest (runHooksGo hr p hks (flushBucket p b).1).1).1,
           (flushBucket p b).2 ++ (runHooksGo hr p hks (flushBucket p b).1).2 ++
            (deliverGo hr lc rest (runHooksGo hr p hks (flushBucket p b).1).1).2)
          from by simp [deliverGo, hp]]
      refine ⟨?_, ?_, ?_⟩
      · rw [(ih _).1, (runHooksGo_flags _ _ _ _).1, (flushBucket_flags _ _).1]
      · rw [(ih _).2.1, (runHooksGo_flags _ _ _ _).2.1, (flushBucket_flags _ _).2.1]
      · intro ev hev
        rcases List.mem_append.mp hev with hev | hev
        · rcases List.mem_append.mp hev with hev | hev
          · exact (flushBucket_flags _ _).2.2 ev hev
          · exact (runHooksGo_flags _ _ _ _).2.2 ev hev
        · exact (ih _).2.2 ev hev
    · rw [show deliverGo hr lc ((p, hks) :: rest) b = deliverGo hr lc rest b
          from by simp [deliverGo, hp]]
      exact ih b

theorem deliverHooks_flags (hr : Nat → List Nat) (lc : Phase) (b : Bus) :
    (deliverHooks hr lc b).1.changed = b.changed ∧
    (deliverHooks hr lc b).1.closed = b.closed ∧
    ∀ ev ∈ (deliverHooks hr lc b).2, hookLayerEv ev = true :=
  deliverGo_flags hr lc _ b

theorem count_rendered_zero_of_hookLayer (evs : List Ev)
    (h : ∀ ev ∈ evs, hookLayerEv ev = true) : evs.count Ev.rendered = 0 := by
  rw [List.count_eq_zero]
  intro hmem
  have hh := h _ hmem
  simp [hookLayerEv] at hh

theorem emit_not_closed (hr : Nat → List Nat) (det : Bool) (lc : Phase) (b : Bus)
    (hcl : b.closed = false) :
    emit hr det lc b =
      ((schedulerStep hr det lc (deliverHooks hr lc b).1).1,
       (deliverHooks hr lc b).2 ++
        (schedulerStep hr det lc (deliverHooks hr lc b).1).2) := by
  simp [emit, hcl]

theorem schedulerStep_viewChecked_eq (hr : Nat → List Nat) (det : Bool) (b : Bus) :
    schedulerStep hr det Phase.AfterViewChecked b =
      if b.changed then
        ({ (deliverHooks hr Phase.WhenRendered
              { b with changed := false, active := true,
                       lc := some Phase.WhenRendered }).1 with
            active := false, lc := none },
         Ev.rendered :: (deliverHooks hr Phase.WhenRendered
              { b with changed := false, active := true,
                       lc := some Phase.WhenRendered }).2)
      else (b, []) := by
  by_cases hc : b.changed <;> simp [schedulerStep, hc, runInCtx]

theorem schedulerStep_doCheck_eq (hr : Nat → List Nat) (det : Bool) (b : Bus) :
    schedulerStep hr det Phase.DoCheck b =
      if det then
        ((deliverHooks hr Phase.OnChanges { b with changed := true }).1,
         Ev.invalidatePass :: Ev.markDirty ::
          (deliverHooks hr Phase.OnChanges { b with changed := true }).2)
      else (b, [Ev.invalidatePass]) := by
  by_cases hd : det <;> simp [schedulerStep, hd]

theorem step_viewChecked_core (hr : Nat → List Nat) (b : Bus) (hcl : b.closed = false) :
    (step hr Trig.viewChecked b).2.count Ev.rendered = (if b.changed then 1 else 0) ∧
    (step hr Trig.viewChecked b).1.changed = false ∧
    (step hr Trig.viewChecked b).1.closed = false := by
  have hb1cl : ({ b with active := true, lc := some Phase.AfterViewChecked } : Bus).closed
      = false := hcl
  have hstep : step hr Trig.viewChecked b =
      ({ (emit hr false Phase.AfterViewChecked
            { b with active := true, lc := some Phase.AfterViewChecked }).1 with
          active := false, lc := none },
       (emit hr false Phase.AfterViewChecked
            { b with active := true, lc := some Phase.AfterViewChecked }).2) := rfl
  rw [hstep, emit_not_closed hr false Phase.AfterViewChecked _ hb1cl]
  have hfl := deliverHooks_flags hr Phase.AfterViewChecked
    { b with active := true, lc := some Phase.AfterViewChecked }
  rw [schedulerStep_viewChecked_eq]
  by_cases hc : b.changed
  · rw [if_pos (by rw [hfl.1]; exact hc)]
    have hfl2 := deliverHooks_flags hr Phase.WhenRendered
      { (deliverHooks hr Phase.AfterViewChecked
          { b with active := true, lc := some Phase.AfterViewChecked }).1 with
        changed := false, active := true, lc := some Phase.WhenRendered }
    refine ⟨?_, ?_, ?_⟩
    · rw [List.count_append, count_rendered_zero_of_hookLayer _ hfl.2.2,
        List.count_cons_self, count_rendered_zero_of_hookLayer _ hfl2.2.2, if_pos hc]
    · exact hfl2.1
    · rw [hfl2.2.1]
      rw [show ({ (deliverHooks hr Phase.AfterViewChecked
            { b with active := true, lc := some Phase.AfterViewChecked }).1 with
          changed := false, active := true, lc := some Phase.WhenRendered } : Bus).closed =
          (deliverHooks hr Phase.AfterViewChecked
            { b with active := true, lc := some Phase.AfterViewChecked }).1.closed from rfl]
      rw [hfl.2.1]
      exact hcl
  · rw [if_neg (by rw [hfl.1]; exact hc)]
    have hcf : b.changed = false := by
      cases hval : b.changed
      · rfl
      · exact absurd hval hc
    refine ⟨?_, ?_, ?_⟩
    · rw [List.count_append, count_rendered_zero_of_hookLayer _ hfl.2.2, hcf]
      rfl
    · rw [show ({ (deliverHooks hr Phase.AfterViewChecked
          { b with active := true, lc := some Phase.AfterViewChecked }).1 with
          active := false, lc := none } : Bus).changed =
          (deliverHooks hr Phase.AfterViewChecked
            { b with active := true, lc := some Phase.AfterViewChecked }).1.changed
          from rfl]
      rw [hfl.1]
      exact hcf
    · rw [show ({ (deliverHooks hr Phase.AfterViewChecked
          { b with active := true, lc := some Phase.AfterViewChecked }).1 with
          active := false, lc := none } : Bus).closed =
          (deliverHooks hr Phase.AfterViewChecked
            { b with active := true, lc := some Phase.AfterViewChecked }).1.closed
          from rfl]
      rw [hfl.2.1]
      exact hcl

theorem step_check_changed (hr : Nat → List Nat) (d : Bool) (b : Bus)
    (hcl : b.closed = false) :
    (step hr (Trig.check d) b).1.changed = (b.changed || d) ∧
    (step hr (Trig.check d) b).1.closed = false := by
  have hb1cl : ({ b with active := true, lc := some Phase.DoCheck } : Bus).closed
      = false := hcl
  have hstep : step hr (Trig.check d) b =
      ({ (emit hr d Phase.DoCheck
            { b with active := true, lc := some Phase.DoCheck }).1 with
          active := false, lc := none },
       (emit hr d Phase.DoCheck
            { b with active := true, lc := some Phase.DoCheck }).2) := rfl
  rw [hstep, emit_not_closed hr d Phase.DoCheck _ hb1cl]
  have hfl := deliverHooks_flags hr Phase.DoCheck
    { b with active := true, lc := some Phase.DoCheck }
  rw [schedulerStep_doCheck_eq]
  cases d with
  | true =>
    rw [if_pos rfl]
    have hfl2 := deliverHooks_flags hr Phase.OnChanges
      { (deliverHooks hr Phase.DoCheck
          { b with active := true, lc := some Phase.DoCheck }).1 with changed := true }
    constructor
    · rw [show ∀ bb : Bus, ({ bb with active := false, lc := none } : Bus).changed =
          bb.changed from fun _ => rfl]
      rw [hfl2.1, Bool.or_true]
    · rw [show ∀ bb : Bus, ({ bb with active := false, lc := none } : Bus).closed =
          bb.closed from fun _ => rfl]
      rw [hfl2.2.1]
      rw [show ({ (deliverHooks hr Phase.DoCheck
          { b with active := true, lc := some Phase.DoCheck }).1 with
          changed := true } : Bus).closed =
          (deliverHooks hr Phase.DoCheck
            { b with active := true, lc := some Phase.DoCheck }).1.closed from rfl]
      rw [hfl.2.1]
      exact hcl
  | false =>
    rw [if_neg (by simp)]
    constructor
    · rw [show ∀ bb : Bus, ({ bb with active := false, lc := none } : Bus).changed =
          bb.changed from fun _ => rfl]
      rw [hfl.1, Bool.or_false]
    · rw [show ∀ bb : Bus, ({ bb with active := false, lc := none } : Bus).closed =
          bb.closed from fun _ => rfl]
      rw [hfl.2.1]
      exact hcl

/-- C7 (amended): Rendered firing is governed purely by the one-shot dirty
flag: a ViewChecked trigger fires Rendered exactly once when the flag is set
and not at all otherwise, firing resets the flag, a ChangeCheck sets it only
when its differ detects a change, and two back-to-back ViewChecked triggers
fire Rendered at most once; however the flag is initialised TRUE at connect
time, so the first ViewChecked trigger fires Rendered even when no change
was ever detected by any ChangeCheck — the claimed "fires only if an
intervening ChangeCheck detected a change" fails at startup, and holds only
from the first Rendered firing onwards. -/
theorem rendered_dirty_flag (hr : Nat → List Nat) (b : Bus) (hcl : b.closed = false) :
    ((step hr Trig.viewChecked b).2.count Ev.rendered = if b.changed then 1 else 0) ∧
      (step hr Trig.viewChecked b).1.changed = false ∧
      (∀ d, (step hr (Trig.check d) b).1.changed = (b.changed || d)) ∧
      (runTrigs hr [Trig.viewChecked, Trig.viewChecked] b).2.count Ev.rendered ≤ 1 ∧
      ∀ hs : Phase → List Nat, (connectedBus hs).changed = true := by
  obtain ⟨h1, h2, h3⟩ := step_viewChecked_core hr b hcl
  refine ⟨h1, h2, fun d => (step_check_changed hr d b hcl).1, ?_, fun hs => rfl⟩
  have hrun : (runTrigs hr [Trig.viewChecked, Trig.viewChecked] b).2 =
      (step hr Trig.viewChecked b).2 ++
        ((step hr Trig.viewChecked (step hr Trig.viewChecked b).1).2 ++ []) := rfl
  obtain ⟨g1, g2, g3⟩ := step_viewChecked_core hr (step hr Trig.viewChecked b).1 h3
  rw [hrun, List.count_append, List.count_append, h1, g1, h2]
  cases b.changed <;> simp

/-- Witness for C7 at a freshly connected bus with no hooks. -/
theorem rendered_dirty_flag_witness :
    ((step (fun _ => []) Trig.viewChecked (connectedBus fun _ => [])).2.count
        Ev.rendered = if (connectedBus fun _ => [] : Bus).changed then 1 else 0) ∧
      (step (fun _ => []) Trig.viewChecked (connectedBus fun _ => [])).1.changed
          = false ∧
      (∀ d, (step (fun _ => []) (Trig.check d) (connectedBus fun _ => [])).1.changed =
        ((connectedBus fun _ => [] : Bus).changed || d)) ∧
      (runTrigs (fun _ => []) [Trig.viewChecked, Trig.viewChecked]
          (connectedBus fun _ => [])).2.count Ev.rendered ≤ 1 ∧
      ∀ hs : Phase → List Nat, (connectedBus hs).changed = true :=
  rendered_dirty_flag (fun _ => []) (connectedBus fun _ => []) rfl

/-- C7 counterexample: from a freshly connected host, a ChangeCheck that
detects no change followed by a single ViewChecked trigger still fires
Rendered — the one-shot flag starts true — so Rendered fires although no
change was detected by any ChangeCheck since the (nonexistent) previous
Rendered firing. -/
theorem rendered_fires_without_detected_change :
    (runTrigs (fun _ => []) [Trig.check false, Trig.viewChecked]
        (connectedBus fun _ => [])).2 = [Ev.invalidatePass, Ev.rendered] := by
  decide

theorem drainGo_shape (p : Phase) : ∀ (l : List Nat) (b : Bus),
    ∀ ev ∈ (drainGo p l b).2, ∃ e t, ev = Ev.effectRun e p t := by
  intro l
  induction l with
  | nil => intro b ev hev; simp [drainGo] at hev
  | cons eff rest ih =>
    intro b ev hev
    rw [drainGo_cons] at hev
    rcases List.mem_cons.mp hev with rfl | hev
    · exact ⟨eff, b.fresh, rfl⟩
    · exact ih _ ev hev

theorem hookBody_eq (hr : Nat → List Nat) (p : Phase) (h : Nat) (b : Bus) :
    hookBody hr p h b =
      ((drainEffects p
          { b with fresh := b.fresh + 1, pending := b.pending ++ hr h,
                   parts := updateBucket p (setAdd b.fresh) b.parts }).1,
       Ev.hookStart p h b.active b.lc :: Ev.teardown p b.fresh ::
        (drainEffects p
          { b with fresh := b.fresh + 1, pending := b.pending ++ hr h,
                   parts := updateBucket p (setAdd b.fresh) b.parts }).2 ++
        [Ev.hookEnd p h]) := rfl

theorem hookBody_boundary (hr : Nat → List Nat) (p : Phase) (h : Nat) (b : Bus) :
    (hookBody hr p h b).2.filter isHookBoundary =
      [Ev.hookStart p h b.active b.lc, Ev.hookEnd p h] ∧
    ∀ ev ∈ (hookBody hr p h b).2, isFlushEv ev = false := by
  have hdr : ∀ ev ∈ (drainEffects p
      { b with fresh := b.fresh + 1, pending := b.pending ++ hr h,
               parts := updateBucket p (setAdd b.fresh) b.parts }).2,
      ∃ e t, ev = Ev.effectRun e p t := fun ev hev => drainGo_shape p _ _ ev hev
  rw [hookBody_eq]
  constructor
  · simp only [List.filter_cons, List.filter_append]
    have hd : (drainEffects p
        { b with fresh := b.fresh + 1, pending := b.pending ++ hr h,
                 parts := updateBucket p (setAdd b.fresh) b.parts }).2.filter
        isHookBoundary = [] := by
      refine List.filter_eq_nil_iff.mpr ?_
      intro ev hev
      obtain ⟨e, t, rfl⟩ := hdr ev hev
      simp [isHookBoundary]
    rw [hd]
    rfl
  · intro ev hev
    rcases List.mem_cons.mp hev with rfl | hev
    · rfl
    rcases List.mem_cons.mp hev with rfl | hev
    · rfl
    rcases List.mem_append.mp hev with hev | hev
    · obtain ⟨e, t, rfl⟩ := hdr ev hev
      rfl
    · rcases List.mem_singleton.mp hev with rfl
      rfl

theorem runHooksGo_boundary (hr : Nat → List Nat) (p : Phase) :
    ∀ (hs : List Nat) (b : Bus),
    (runHooksGo hr p hs b).2.filter isHookBoundary = hookBoundary p hs ∧
    ∀ ev ∈ (runHooksGo hr p hs b).2, isFlushEv ev = false := by
  intro hs
  induction hs with
  | nil =>
    intro b
    exact ⟨rfl, by intro ev hev; simp [runHooksGo] at hev⟩
  | cons h rest ih =>
    intro b
    rw [runHooksGo_cons]
    have hbd := hookBody_boundary hr p h { b with active := true, lc := some p }
    constructor
    · rw [List.filter_append, (runInCtx_flags _ _ _).2.2, hbd.1, (ih _).1]
      rfl
    · intro ev hev
      rcases List.mem_append.mp hev with hev | hev
      · rw [(runInCtx_flags _ _ _).2.2] at hev
        exact hbd.2 ev hev
      · exact (ih _).2 ev hev

theorem deliverGo_skip (hr : Nat → List Nat) (lc : Phase) :
    ∀ (pre rest : List (Phase × List Nat)) (b : Bus),
    (∀ x ∈ pre, x.1 ≠ lc) → deliverGo hr lc (pre ++ rest) b = deliverGo hr lc rest b := by
  intro pre
  induction pre with
  | nil => intro rest b _; rfl
  | cons x xs ih =>
    intro rest b hall
    obtain ⟨p, hks⟩ := x
    have hp : p ≠ lc := hall (p, hks) (List.mem_cons_self _ _)
    rw [show deliverGo hr lc (((p, hks) :: xs) ++ rest) b =
        deliverGo hr lc (xs ++ rest) b from by simp [deliverGo, hp]]
    exact ih rest b fun x hx => hall x (List.mem_cons_of_mem _ hx)

theorem deliverGo_match (hr : Nat → List Nat) (lc : Phase) (hks : List Nat)
    (rest : List (Phase × List Nat)) (b : Bus) :
    deliverGo hr lc ((lc, hks) :: rest) b =
      ((deliverGo hr lc rest (runHooksGo hr lc hks (flushBucket lc b).1).1).1,
       (flushBucket lc b).2 ++ (runHooksGo hr lc hks (flushBucket lc b).1).2 ++
        (deliverGo hr lc rest (runHooksGo hr lc hks (flushBucket lc b).1).1).2) := by
  simp [deliverGo]

theorem deliverHooks_structure (hr : Nat → List Nat) (lc : Phase) (b : Bus)
    (hnd : (b.parts.map Part.phase).Nodup) (pt : Part) (hpt : pt ∈ b.parts)
    (hphase : pt.phase = lc) :
    ∃ l2, (deliverHooks hr lc b).2 = (bucketAt b lc).map (Ev.flushT lc) ++ l2 ∧
      (∀ ev ∈ l2, isFlushEv ev = false) ∧
      l2.filter isHookBoundary = hookBoundary lc pt.hooks := by
  obtain ⟨p1, p2, hsplit⟩ := List.append_of_mem hpt
  have hndp : (List.map Part.phase p1 ++ pt.phase :: List.map Part.phase p2).Nodup := by
    rw [hsplit] at hnd
    simpa using hnd
  have h1 : ∀ x ∈ p1, x.phase ≠ lc := by
    intro x hx heq
    have hdisj := List.disjoint_of_nodup_append hndp
    exact hdisj (List.mem_map_of_mem Part.phase hx)
      (by rw [heq, ← hphase]; exact List.mem_cons_self _ _)
  have h2 : ∀ x ∈ p2, x.phase ≠ lc := by
    intro x hx heq
    have hmid := (List.Nodup.of_append_right hndp)
    have := (List.nodup_cons.mp hmid).1
    exact this (by rw [hphase, ← heq]; exact List.mem_map_of_mem Part.phase hx)
  have hsubs : b.parts.map (fun x => (x.phase, x.hooks)) =
      (p1.map fun x => (x.phase, x.hooks)) ++ (lc, pt.hooks) ::
        (p2.map fun x => (x.phase, x.hooks)) := by
    rw [hsplit]
    simp [hphase]
  unfold deliverHooks
  rw [hsubs, deliverGo_skip hr lc _ _ b (by
    intro x hx
    obtain ⟨y, hy, rfl⟩ := List.mem_map.mp hx
    exact h1 y hy)]
  rw [deliverGo_match]
  have htail : (deliverGo hr lc (p2.map fun x => (x.phase, x.hooks))
      (runHooksGo hr lc pt.hooks (flushBucket lc b).1).1) =
      ((runHooksGo hr lc pt.hooks (flushBucket lc b).1).1, []) := by
    rw [← List.append_nil (p2.map fun x => (x.phase, x.hooks))]
    rw [deliverGo_skip hr lc _ _ _ (by
      intro x hx
      obtain ⟨y, hy, rfl⟩ := List.mem_map.mp hx
      exact h2 y hy)]
    rfl
  refine ⟨(runHooksGo hr lc pt.hooks (flushBucket lc b).1).2 ++
      (deliverGo hr lc (p2.map fun x => (x.phase, x.hooks))
        (runHooksGo hr lc pt.hooks (flushBucket lc b).1).1).2, ?_, ?_, ?_⟩
  · rw [List.append_assoc]
    rfl
  · intro ev hev
    rcases List.mem_append.mp hev with hev | hev
    · exact (runHooksGo_boundary hr lc pt.hooks _).2 ev hev
    · rw [htail] at hev
      simp at hev
  · rw [List.filter_append, htail]
    simp [(runHooksGo_boundary hr lc pt.hooks _).1]

theorem releasedIds_append (e1 e2 : List Ev) :
    releasedIds (e1 ++ e2) = releasedIds e1 ++ releasedIds e2 := by
  simp [releasedIds]

theorem addedIds_append (e1 e2 : List Ev) :
    addedIds (e1 ++ e2) = addedIds e1 ++ addedIds e2 := by
  simp [addedIds]

theorem releasedIds_map_flush (p : Phase) (xs : List Nat) :
    releasedIds (xs.map (Ev.flushT p)) = xs := by
  induction xs with
  | nil => rfl
  | cons x rest ih =>
    have hstep : releasedIds ((x :: rest).map (Ev.flushT p)) =
        x :: releasedIds (rest.map (Ev.flushT p)) := rfl
    rw [hstep, ih]

theorem addedIds_map_flush (p : Phase) (xs : List Nat) :
    addedIds (xs.map (Ev.flushT p)) = [] := by
  induction xs with
  | nil => rfl
  | cons x rest ih =>
    have hstep : addedIds ((x :: rest).map (Ev.flushT p)) =
        addedIds (rest.map (Ev.flushT p)) := rfl
    rw [hstep, ih]

theorem range'_glue (x y z : Nat) (hxy : x ≤ y) (hyz : y ≤ z) :
    List.range' x (y - x) ++ List.range' y (z - y) = List.range' x (z - x) := by
  have h := List.range'_append_1 x (y - x) (z - y)
  rw [show x + (y - x) = y from by omega] at h
  rw [h, show z - y + (y - x) = z - x from by omega]

theorem opInv_refl (b : Bus) (hlt : ∀ t ∈ busTeardowns b, t < b.fresh) :
    OpInv b b [] := by
  refine ⟨rfl, Nat.le_refl _, ?_, ?_, hlt⟩
  · simp [addedIds]
  · simp [releasedIds, addedIds]

theorem opInv_core (b b' : Bus) (hp : b'.parts = b.parts) (hf : b'.fresh = b.fresh)
    (hlt : ∀ t ∈ busTeardowns b, t < b.fresh) : OpInv b b' [] := by
  refine ⟨by rw [hp], by omega, ?_, ?_, ?_⟩
  · simp [addedIds, hf]
  · simp [releasedIds, addedIds, busTeardowns, hp]
  · intro t ht
    rw [hf]
    refine hlt t ?_
    simpa [busTeardowns, hp] using ht

theorem opInv_comp {b b1 b2 : Bus} {e1 e2 : List Ev}
    (h1 : OpInv b b1 e1) (h2 : OpInv b1 b2 e2) : OpInv b b2 (e1 ++ e2) := by
  obtain ⟨hp1, hf1, ha1, hperm1, hlt1⟩ := h1
  obtain ⟨hp2, hf2, ha2, hperm2, hlt2⟩ := h2
  refine ⟨hp2.trans hp1, Nat.le_trans hf1 hf2, ?_, ?_, hlt2⟩
  · rw [addedIds_append, ha1, ha2, range'_glue b.fresh b1.fresh b2.fresh hf1 hf2]
  · rw [releasedIds_append, addedIds_append]
    have s1 : (busTeardowns b2 ++ (releasedIds e1 ++ releasedIds e2)).Perm
        (busTeardowns b2 ++ releasedIds e2 ++ releasedIds e1) := by
      rw [List.append_assoc]
      exact List.Perm.append_left _ List.perm_append_comm
    have s2 : (busTeardowns b2 ++ releasedIds e2 ++ releasedIds e1).Perm
        (busTeardowns b1 ++ addedIds e2 ++ releasedIds e1) :=
      hperm2.append_right _
    have s3 : (busTeardowns b1 ++ addedIds e2 ++ releasedIds e1).Perm
        (busTeardowns b1 ++ releasedIds e1 ++ addedIds e2) := by
      rw [List.append_assoc, List.append_assoc]
      exact List.Perm.append_left _ List.perm_append_comm
    have s4 : (busTeardowns b1 ++ releasedIds e1 ++ addedIds e2).Perm
        (busTeardowns b ++ addedIds e1 ++ addedIds e2) :=
      hperm1.append_right _
    have s5 : busTeardowns b ++ addedIds e1 ++ addedIds e2 =
        busTeardowns b ++ (addedIds e1 ++ addedIds e2) := by
      rw [List.append_assoc]
    exact (((s1.trans s2).trans s3).trans s4).trans (s5 ▸ List.Perm.refl _)

theorem opInv_evs_congr {b b' : Bus} {evs evs' : List Ev}
    (hrel : releasedIds evs = releasedIds evs')
    (hadd : addedIds evs = addedIds evs')
    (h : OpInv b b' evs') : OpInv b b' evs := by
  obtain ⟨h1, h2, h3, h4, h5⟩ := h
  exact ⟨h1, h2, by rw [hadd, h3], by rw [hrel, hadd]; exact h4, h5⟩

theorem parts_split (b : Bus) (p : Phase) (hnd : (b.parts.map Part.phase).Nodup)
    (pt : Part) (hpt : pt ∈ b.parts) (hph : pt.phase = p) :
    ∃ pre post, b.parts = pre ++ pt :: post ∧ (∀ x ∈ pre, x.phase ≠ p) ∧
      ∀ x ∈ post, x.phase ≠ p := by
  obtain ⟨pre, post, hsplit⟩ := List.append_of_mem hpt
  have hndp : (pre.map Part.phase ++ pt.phase :: post.map Part.phase).Nodup := by
    rw [hsplit] at hnd
    simpa using hnd
  refine ⟨pre, post, hsplit, ?_, ?_⟩
  · intro x hx heq
    exact (List.disjoint_of_nodup_append hndp) (List.mem_map_of_mem _ hx)
      (by rw [heq, ← hph]; exact List.mem_cons_self _ _)
  · intro x hx heq
    have hmid := List.Nodup.of_append_right hndp
    exact (List.nodup_cons.mp hmid).1
      (by rw [hph, ← heq]; exact List.mem_map_of_mem _ hx)

theorem updateBucket_not_mem (p : Phase) (f : List Nat → List Nat) :
    ∀ (parts : List Part), (∀ pt ∈ parts, pt.phase ≠ p) →
    updateBucket p f parts = parts := by
  intro parts h
  unfold updateBucket
  rw [List.map_congr_left fun pt hpt => if_neg (h pt hpt)]
  exact List.map_id _

theorem updateBucket_split (p : Phase) (f : List Nat → List Nat) (pre post : List Part)
    (pt : Part) (hpre : ∀ x ∈ pre, x.phase ≠ p) (hph : pt.phase = p)
    (hpost : ∀ x ∈ post, x.phase ≠ p) :
    updateBucket p f (pre ++ pt :: post) =
      pre ++ { pt with bucket := f pt.bucket } :: post := by
  unfold updateBucket
  rw [List.map_append]
  congr 1
  · rw [List.map_congr_left fun x hx => if_neg (hpre x hx)]
    exact List.map_id _
  · rw [List.map_cons, if_pos hph,
      List.map_congr_left fun x hx => if_neg (hpost x hx)]
    rw [show List.map (fun pt : Part => pt) post = post from List.map_id _]

theorem updateBucket_phases (p : Phase) (f : List Nat → List Nat) (parts : List Part) :
    (updateBucket p f parts).map Part.phase = parts.map Part.phase := by
  unfold updateBucket
  rw [List.map_map]
  refine List.map_congr_left fun pt _ => ?_
  by_cases h : pt.phase = p <;> simp [h]

theorem find?_first (p : Phase) : ∀ (pre : List Part) (pt : Part) (post : List Part),
    (∀ x ∈ pre, x.phase ≠ p) → pt.phase = p →
    ((pre ++ pt :: post).find? fun x => x.phase = p) = some pt := by
  intro pre
  induction pre with
  | nil =>
    intro pt post _ hph
    simp [List.find?_cons, hph]
  | cons y ys ih =>
    intro pt post hpre hph
    rw [List.cons_append]
    rw [List.find?_cons_of_neg _ (by simp [hpre y (List.mem_cons_self _ _)])]
    exact ih pt post (fun x hx => hpre x (List.mem_cons_of_mem _ hx)) hph

theorem bucketAt_split (b : Bus) (p : Phase) (pre post : List Part) (pt : Part)
    (hsplit : b.parts = pre ++ pt :: post) (hpre : ∀ x ∈ pre, x.phase ≠ p)
    (hph : pt.phase = p) : bucketAt b p = pt.bucket := by
  unfold bucketAt
  rw [hsplit, find?_first p pre pt post hpre hph]
  rfl

theorem flatten_buckets_split (pre post : List Part) (pt : Part) :
    (((pre ++ pt :: post).map Part.bucket).flatten) =
      ((pre.map Part.bucket).flatten) ++
        (pt.bucket ++ ((post.map Part.bucket).flatten)) := by
  simp

theorem flushBucket_opInv (p : Phase) (b : Bus)
    (hnd : (b.parts.map Part.phase).Nodup)
    (hlt : ∀ t ∈ busTeardowns b, t < b.fresh) :
    OpInv b (flushBucket p b).1 (flushBucket p b).2 := by
  by_cases hex : ∃ pt ∈ b.parts, pt.phase = p
  · obtain ⟨pt, hpt, hph⟩ := hex
    obtain ⟨pre, post, hsplit, hpre, hpost⟩ := parts_split b p hnd pt hpt hph
    have hbk : bucketAt b p = pt.bucket := bucketAt_split b p pre post pt hsplit hpre hph
    have hupd : updateBucket p (fun _ => []) b.parts =
        pre ++ { pt with bucket := [] } :: post := by
      rw [hsplit, updateBucket_split p _ pre post pt hpre hph hpost]
    have hparts : (flushBucket p b).1.parts = pre ++ { pt with bucket := [] } :: post :=
      hupd
    have htrace : (flushBucket p b).2 = pt.bucket.map (Ev.flushT p) := by
      show (bucketAt b p).map (Ev.flushT p) = _
      rw [hbk]
    have hbusT : busTeardowns b =
        ((pre.map Part.bucket).flatten) ++
          (pt.bucket ++ ((post.map Part.bucket).flatten)) := by
      show ((b.parts.map Part.bucket).flatten) = _
      rw [hsplit, flatten_buckets_split]
    have hbusT' : busTeardowns (flushBucket p b).1 =
        ((pre.map Part.bucket).flatten) ++ ((post.map Part.bucket).flatten) := by
      show (((flushBucket p b).1.parts.map Part.bucket).flatten) = _
      rw [hparts, flatten_buckets_split]
      simp
    refine ⟨?_, Nat.le_refl _, ?_, ?_, ?_⟩
    · rw [show (flushBucket p b).1.parts = updateBucket p (fun _ => []) b.parts from rfl,
        updateBucket_phases]
    · rw [htrace, addedIds_map_flush]
      show _ = List.range' b.fresh (b.fresh - b.fresh)
      simp
    · rw [htrace, releasedIds_map_flush, addedIds_map_flush, hbusT', hbusT,
        List.append_nil, List.append_assoc]
      exact List.Perm.append_left _ List.perm_append_comm
    · intro t ht
      rw [hbusT'] at ht
      show t < b.fresh
      refine hlt t ?_
      rw [hbusT]
      rcases List.mem_append.mp ht with h | h
      · exact List.mem_append_left _ h
      · exact List.mem_append_right _ (List.mem_append_right _ h)
  · push_neg at hex
    have h2 : (flushBucket p b).2 = [] := by
      show (bucketAt b p).map (Ev.flushT p) = []
      unfold bucketAt
      rw [List.find?_eq_none.mpr (by intro x hx; simpa using hex x hx)]
      rfl
    have h1 : (flushBucket p b).1.parts = b.parts := by
      rw [show (flushBucket p b).1.parts = updateBucket p (fun _ => []) b.parts from rfl]
      exact updateBucket_not_mem p _ b.parts hex
    rw [h2]
    exact opInv_core b (flushBucket p b).1 h1 rfl hlt

theorem add_fresh_opInv (p : Phase) (b b' : Bus)
    (hnd : (b.parts.map Part.phase).Nodup)
    (hlt : ∀ t ∈ busTeardowns b, t < b.fresh)
    (hex : p ∈ b.parts.map Part.phase)
    (hp : b'.parts = updateBucket p (setAdd b.fresh) b.parts)
    (hf : b'.fresh = b.fresh + 1) (evs : List Ev)
    (hrel : releasedIds evs = []) (hadd : addedIds evs = [b.fresh]) :
    OpInv b b' evs := by
  obtain ⟨pt, hpt, hph⟩ : ∃ pt ∈ b.parts, pt.phase = p := by
    obtain ⟨pt, h1, h2⟩ := List.mem_map.mp hex
    exact ⟨pt, h1, h2⟩
  obtain ⟨pre, post, hsplit, hpre, hpost⟩ := parts_split b p hnd pt hpt hph
  have hnotin : b.fresh ∉ pt.bucket := fun hmem =>
    absurd (hlt b.fresh
        (List.mem_flatten.mpr ⟨pt.bucket, List.mem_map_of_mem _ hpt, hmem⟩))
      (by omega)
  have hset : setAdd b.fresh pt.bucket = pt.bucket ++ [b.fresh] := by
    unfold setAdd
    rw [if_neg hnotin]
  have hparts : b'.parts = pre ++ { pt with bucket := pt.bucket ++ [b.fresh] } :: post := by
    rw [hp, hsplit, updateBucket_split p _ pre post pt hpre hph hpost, hset]
  have hbusT : busTeardowns b =
      ((pre.map Part.bucket).flatten) ++
        (pt.bucket ++ ((post.map Part.bucket).flatten)) := by
    show ((b.parts.map Part.bucket).flatten) = _
    rw [hsplit, flatten_buckets_split]
  have hbusT' : busTeardowns b' =
      ((pre.map Part.bucket).flatten) ++
        ((pt.bucket ++ [b.fresh]) ++ ((post.map Part.bucket).flatten)) := by
    show ((b'.parts.map Part.bucket).flatten) = _
    rw [hparts, flatten_buckets_split]
  refine ⟨?_, by omega, ?_, ?_, ?_⟩
  · rw [hp, updateBucket_phases]
  · rw [hadd, hf]
    simp [List.range']
  · rw [hrel, hadd, List.append_nil, hbusT', hbusT, List.append_assoc,
      List.append_assoc]
    refine List.Perm.append_left _ ?_
    rw [List.append_assoc]
    refine List.Perm.append_left _ ?_
    exact List.perm_append_comm
  · intro t ht
    rw [hbusT'] at ht
    rw [hf]
    rcases List.mem_append.mp ht with h | h
    · have : t < b.fresh := hlt t (by rw [hbusT]; exact List.mem_append_left _ h)
      omega
    rcases List.mem_append.mp h with h | h
    · rcases List.mem_append.mp h with h | h
      · have : t < b.fresh := hlt t (by
          rw [hbusT]
          exact List.mem_append_right _ (List.mem_append_left _ h))
        omega
      · rcases List.mem_singleton.mp h with rfl
        omega
    · have : t < b.fresh := hlt t (by
        rw [hbusT]
        exact List.mem_append_right _ (List.mem_append_right _ h))
      omega

theorem drainGo_opInv (p : Phase) : ∀ (l : List Nat) (b : Bus),
    (b.parts.map Part.phase).Nodup →
    (∀ t ∈ busTeardowns b, t < b.fresh) →
    p ∈ b.parts.map Part.phase →
    OpInv b (drainGo p l b).1 (drainGo p l b).2 := by
  intro l
  induction l with
  | nil => intro b hnd hlt _; exact opInv_refl b hlt
  | cons eff rest ih =>
    intro b hnd hlt hex
    rw [drainGo_cons]
    have hstep : OpInv b
        { b with fresh := b.fresh + 1,
                 parts := updateBucket p (setAdd b.fresh) b.parts }
        [Ev.effectRun eff p b.fresh] :=
      add_fresh_opInv p b _ hnd hlt hex rfl rfl _ rfl rfl
    have hih := ih _ (by rw [hstep.1]; exact hnd) hstep.2.2.2.2
      (by rw [hstep.1]; exact hex)
    exact opInv_comp hstep hih

theorem hookBody_opInv (hr : Nat → List Nat) (p : Phase) (h : Nat) (b : Bus)
    (hnd : (b.parts.map Part.phase).Nodup)
    (hlt : ∀ t ∈ busTeardowns b, t < b.fresh)
    (hex : p ∈ b.parts.map Part.phase) :
    OpInv b (hookBody hr p h b).1 (hookBody hr p h b).2 := by
  rw [hookBody_eq]
  have hstep : OpInv b
      { b with fresh := b.fresh + 1, pending := b.pending ++ hr h,
               parts := updateBucket p (setAdd b.fresh) b.parts }
      [Ev.teardown p b.fresh] :=
    add_fresh_opInv p b _ hnd hlt hex rfl rfl _ rfl rfl
  have hdrain := drainGo_opInv p (b.pending ++ hr h)
    { b with fresh := b.fresh + 1, pending := [],
             parts := updateBucket p (setAdd b.fresh) b.parts }
    (by show ((updateBucket p (setAdd b.fresh) b.parts).map Part.phase).Nodup
        rw [updateBucket_phases]
        exact hnd)
    hstep.2.2.2.2
    (by show p ∈ (updateBucket p (setAdd b.fresh) b.parts).map Part.phase
        rw [updateBucket_phases]
        exact hex)
  have hcore : OpInv b (hookBody hr p h b).1
      ([Ev.teardown p b.fresh] ++ (drainEffects p
        { b with fresh := b.fresh + 1, pending := b.pending ++ hr h,
                 parts := updateBucket p (setAdd b.fresh) b.parts }).2) := by
    rw [hookBody_eq]
    exact opInv_comp hstep hdrain
  refine opInv_evs_congr ?_ ?_ hcore
  · simp [releasedIds]
  · simp [addedIds]

theorem runHooksGo_opInv (hr : Nat → List Nat) (p : Phase) :
    ∀ (hs : List Nat) (b : Bus),
    (b.parts.map Part.phase).Nodup →
    (∀ t ∈ busTeardowns b, t < b.fresh) →
    p ∈ b.parts.map Part.phase →
    OpInv b (runHooksGo hr p hs b).1 (runHooksGo hr p hs b).2 := by
  intro hs
  induction hs with
  | nil => intro b hnd hlt _; exact opInv_refl b hlt
  | cons h rest ih =>
    intro b hnd hlt hex
    rw [runHooksGo_cons]
    have hbody := hookBody_opInv hr p h { b with active := true, lc := some p }
      hnd hlt hex
    have hstep : OpInv b (runInCtx (some p) (hookBody hr p h) b).1
        (runInCtx (some p) (hookBody hr p h) b).2 := hbody
    have hih := ih _ (by rw [hstep.1]; exact hnd) hstep.2.2.2.2
      (by rw [hstep.1]; exact hex)
    exact opInv_comp hstep hih

theorem deliverGo_opInv (hr : Nat → List Nat) (lc : Phase) :
    ∀ (subs : List (Phase × List Nat)) (b : Bus),
    (b.parts.map Part.phase).Nodup →
    (∀ t ∈ busTeardowns b, t < b.fresh) →
    (∀ x ∈ subs, x.1 ∈ b.parts.map Part.phase) →
    OpInv b (deliverGo hr lc subs b).1 (deliverGo hr lc subs b).2 := by
  intro subs
  induction subs with
  | nil => intro b hnd hlt _; exact opInv_refl b hlt
  | cons sub rest ih =>
    intro b hnd hlt hexs
    obtain ⟨p, hks⟩ := sub
    by_cases hp : p = lc
    · subst hp
      rw [deliverGo_match]
      have hflush := flushBucket_opInv p b hnd hlt
      have hrun := runHooksGo_opInv hr p hks (flushBucket p b).1
        (by rw [hflush.1]; exact hnd) hflush.2.2.2.2
        (by rw [hflush.1]; exact hexs (p, hks) (List.mem_cons_self _ _))
      have hrest := ih (runHooksGo hr p hks (flushBucket p b).1).1
        (by rw [hrun.1, hflush.1]; exact hnd) hrun.2.2.2.2
        (by rw [hrun.1, hflush.1]
            intro x hx
            exact hexs x (List.mem_cons_of_mem _ hx))
      exact opInv_comp (opInv_comp hflush hrun) hrest
    · rw [show deliverGo hr lc ((p, hks) :: rest) b = deliverGo hr lc rest b from by
        simp [deliverGo, hp]]
      exact ih b hnd hlt fun x hx => hexs x (List.mem_cons_of_mem _ hx)

theorem deliverHooks_opInv (hr : Nat → List Nat) (lc : Phase) (b : Bus)
    (hnd : (b.parts.map Part.phase).Nodup)
    (hlt : ∀ t ∈ busTeardowns b, t < b.fresh) :
    OpInv b (deliverHooks hr lc b).1 (deliverHooks hr lc b).2 := by
  refine deliverGo_opInv hr lc _ b hnd hlt ?_
  intro x hx
  obtain ⟨pt, hpt, rfl⟩ := List.mem_map.mp hx
  exact List.mem_map_of_mem _ hpt

theorem completeGo_cons (p : Phase) (rest : List Phase) (b : Bus) :
    completeGo (p :: rest) b =
      ((completeGo rest (flushBucket p b).1).1,
       (flushBucket p b).2 ++ (completeGo rest (flushBucket p b).1).2) := rfl

theorem completeGo_opInv : ∀ (l : List Phase) (b : Bus),
    (b.parts.map Part.phase).Nodup →
    (∀ t ∈ busTeardowns b, t < b.fresh) →
    OpInv b (completeGo l b).1 (completeGo l b).2 := by
  intro l
  induction l with
  | nil => intro b hnd hlt; exact opInv_refl b hlt
  | cons p rest ih =>
    intro b hnd hlt
    rw [completeGo_cons]
    have hflush := flushBucket_opInv p b hnd hlt
    have hih := ih _ (by rw [hflush.1]; exact hnd) hflush.2.2.2.2
    exact opInv_comp hflush hih

/-- C6: one delivery of a phase on the bus — which is what every external
trigger performs for its resulting phase, and what the scheduler's nested
OnChanges/WhenRendered emissions perform as well — first flushes that
phase's cleanup bucket completely (one release per held artifact, in
insertion order) before anything else happens; no further flush occurs
during the delivery, so teardown of the previous run is never interleaved
with the creation of new side effects; and the phase's registered hooks run
in registration order, a hook ending before the next one starts, each
observing an ambient context that designates this host and this phase. -/
theorem phase_delivery_ordering (hr : Nat → List Nat) (lc : Phase) (b : Bus)
    (hnd : (b.parts.map Part.phase).Nodup) (pt : Part) (hpt : pt ∈ b.parts)
    (hphase : pt.phase = lc) :
    ∃ l2, (deliverHooks hr lc b).2 = (bucketAt b lc).map (Ev.flushT lc) ++ l2 ∧
      (∀ ev ∈ l2, isFlushEv ev = false) ∧
      l2.filter isHookBoundary = hookBoundary lc pt.hooks :=
  deliverHooks_structure hr lc b hnd pt hpt hphase

/-- Witness for C6: one phase with two hooks and one held artifact — the
artifact is released first, then hook 1 runs to completion before hook 2,
both inside the (host, phase) context. -/
theorem phase_delivery_ordering_witness :
    ∃ l2, (deliverHooks (fun _ => []) Phase.OnInit
        ⟨[⟨Phase.OnInit, [1, 2], [5]⟩], [], true, false, false, none, 6⟩).2 =
      (bucketAt ⟨[⟨Phase.OnInit, [1, 2], [5]⟩], [], true, false, false, none, 6⟩
          Phase.OnInit).map (Ev.flushT Phase.OnInit) ++ l2 ∧
      (∀ ev ∈ l2, isFlushEv ev = false) ∧
      l2.filter isHookBoundary = hookBoundary Phase.OnInit [1, 2] :=
  phase_delivery_ordering (fun _ => []) Phase.OnInit
    ⟨[⟨Phase.OnInit, [1, 2], [5]⟩], [], true, false, false, none, 6⟩
    (by decide) ⟨Phase.OnInit, [1, 2], [5]⟩ (by decide) rfl

theorem flushBucket_parts (p : Phase) (b : Bus) :
    (flushBucket p b).1.parts = updateBucket p (fun _ => []) b.parts := rfl

theorem completeGo_parts : ∀ (l : List Phase) (b : Bus),
    (completeGo l b).1.parts = b.parts.map (emptyBucketsFor l) := by
  intro l
  induction l with
  | nil =>
    intro b
    show b.parts = b.parts.map (emptyBucketsFor [])
    rw [show b.parts.map (emptyBucketsFor []) = b.parts.map (fun pt => pt) from
      List.map_congr_left fun pt _ => by unfold emptyBucketsFor; rw [if_neg (by simp)]]
    rw [show List.map (fun pt : Part => pt) b.parts = b.parts from List.map_id _]
  | cons p rest ih =>
    intro b
    rw [completeGo_cons]
    show (completeGo rest (flushBucket p b).1).1.parts = _
    rw [ih, flushBucket_parts]
    unfold updateBucket
    rw [List.map_map]
    refine List.map_congr_left fun pt _ => ?_
    by_cases hp : pt.phase = p
    · by_cases hm : pt.phase ∈ rest <;> simp [emptyBucketsFor, hp, hm]
    · by_cases hm : pt.phase ∈ rest <;> simp [emptyBucketsFor, hp, hm]

theorem completeGo_all_flush : ∀ (l : List Phase) (b : Bus),
    ∀ ev ∈ (completeGo l b).2, isFlushEv ev = true := by
  intro l
  induction l with
  | nil => intro b ev hev; simp [completeGo] at hev
  | cons p rest ih =>
    intro b ev hev
    rw [completeGo_cons] at hev
    rcases List.mem_append.mp hev with hev | hev
    · obtain ⟨t, _, rfl⟩ := List.mem_map.mp hev
      rfl
    · exact ih _ ev hev

theorem completeAll_buckets_empty (b : Bus) :
    ∀ pt ∈ (completeAll b).1.parts, pt.bucket = [] := by
  intro pt hpt
  rw [show (completeAll b).1.parts =
      b.parts.map (emptyBucketsFor (b.parts.map Part.phase)) from
    completeGo_parts _ _] at hpt
  obtain ⟨x, hx, rfl⟩ := List.mem_map.mp hpt
  unfold emptyBucketsFor
  rw [if_pos (List.mem_map_of_mem _ hx)]

theorem busTeardowns_eq_nil (b : Bus) (h : ∀ pt ∈ b.parts, pt.bucket = []) :
    busTeardowns b = [] := by
  unfold busTeardowns
  refine List.flatten_eq_nil_iff.mpr ?_
  intro x hx
  obtain ⟨pt, hpt, rfl⟩ := List.mem_map.mp hx
  exact h pt hpt

theorem schedulerStep_onDestroy_eq (hr : Nat → List Nat) (det : Bool) (b : Bus) :
    schedulerStep hr det Phase.OnDestroy b =
      ({ (completeAll b).1 with closed := true },
       (completeAll b).2 ++ [Ev.completed]) := by
  simp [schedulerStep]

theorem hookBoundary_count (lc : Phase) (h : Nat) : ∀ (hs : List Nat),
    (hookBoundary lc hs).count (Ev.hookStart lc h true (some lc)) = hs.count h := by
  intro hs
  induction hs with
  | nil => rfl
  | cons h' rest ih =>
    show ((Ev.hookStart lc h' true (some lc)) :: (Ev.hookEnd lc h') ::
      hookBoundary lc rest).count _ = _
    by_cases hh : h' = h
    · subst hh
      simp [List.count_cons, ih]
    · simp [List.count_cons, ih, hh, Ne.symm hh]

theorem count_hookStart_of_all_flush (evs : List Ev)
    (hall : ∀ ev ∈ evs, isFlushEv ev = true) (q : Phase) (h : Nat) (a : Bool)
    (o : Option Phase) : evs.count (Ev.hookStart q h a o) = 0 := by
  rw [List.count_eq_zero]
  intro hmem
  have hfl := hall _ hmem
  simp [isFlushEv] at hfl

theorem count_hookStart_map_flush (p q : Phase) (h : Nat) (a : Bool)
    (o : Option Phase) (xs : List Nat) :
    (xs.map (Ev.flushT p)).count (Ev.hookStart q h a o) = 0 := by
  rw [List.count_eq_zero]
  intro hmem
  obtain ⟨t, _, heq⟩ := List.mem_map.mp hmem
  exact Ev.noConfusion heq

theorem destroy_core (hr : Nat → List Nat) (b1 : Bus)
    (hnd : (b1.parts.map Part.phase).Nodup)
    (hw2 : ∀ pt ∈ b1.parts, pt.hooks.Nodup ∧ pt.bucket.Nodup)
    (hndT : (busTeardowns b1).Nodup)
    (hltT : ∀ t ∈ busTeardowns b1, t < b1.fresh) :
    (∀ pt ∈ b1.parts, pt.phase = Phase.OnDestroy → ∀ h ∈ pt.hooks,
      ((deliverHooks hr Phase.OnDestroy b1).2 ++
        ((completeAll (deliverHooks hr Phase.OnDestroy b1).1).2 ++
          [Ev.completed])).count
        (Ev.hookStart Phase.OnDestroy h true (some Phase.OnDestroy)) = 1) ∧
      (∀ t ∈ busTeardowns b1,
        (releasedIds ((deliverHooks hr Phase.OnDestroy b1).2 ++
          ((completeAll (deliverHooks hr Phase.OnDestroy b1).1).2 ++
            [Ev.completed]))).count t = 1) ∧
      (∀ t ∈ addedIds ((deliverHooks hr Phase.OnDestroy b1).2 ++
          ((completeAll (deliverHooks hr Phase.OnDestroy b1).1).2 ++
            [Ev.completed])),
        (releasedIds ((deliverHooks hr Phase.OnDestroy b1).2 ++
          ((completeAll (deliverHooks hr Phase.OnDestroy b1).1).2 ++
            [Ev.completed]))).count t = 1) ∧
      ∀ pt ∈ (completeAll (deliverHooks hr Phase.OnDestroy b1).1).1.parts,
        pt.bucket = [] := by
  set bd := (deliverHooks hr Phase.OnDestroy b1).1 with hbd
  set evD := (deliverHooks hr Phase.OnDestroy b1).2 with hevD
  set evC := (completeAll bd).2 with hevC
  have hD : OpInv b1 bd evD := deliverHooks_opInv hr Phase.OnDestroy b1 hnd hltT
  have hC : OpInv bd (completeAll bd).1 evC :=
    completeGo_opInv (bd.parts.map Part.phase) bd (by rw [hD.1]; exact hnd)
      hD.2.2.2.2
  have hDC : OpInv b1 (completeAll bd).1 (evD ++ evC) := opInv_comp hD hC
  have hempty : ∀ pt ∈ (completeAll bd).1.parts, pt.bucket = [] :=
    completeAll_buckets_empty bd
  have hbcnil : busTeardowns (completeAll bd).1 = [] := busTeardowns_eq_nil _ hempty
  have hrelEq : releasedIds (evD ++ (evC ++ [Ev.completed])) =
      releasedIds (evD ++ evC) := by
    rw [releasedIds_append, releasedIds_append, releasedIds_append]
    simp [releasedIds]
  have haddEq : addedIds (evD ++ (evC ++ [Ev.completed])) =
      addedIds (evD ++ evC) := by
    rw [addedIds_append, addedIds_append, addedIds_append]
    simp [addedIds]
  have hperm := hDC.2.2.2.1
  rw [hbcnil, List.nil_append] at hperm
  have hcount : ∀ t, (releasedIds (evD ++ (evC ++ [Ev.completed]))).count t =
      (busTeardowns b1).count t + (addedIds (evD ++ evC)).count t := by
    intro t
    rw [hrelEq, hperm.count_eq t, List.count_append]
  refine ⟨?_, ?_, ?_, hempty⟩
  · intro pt hpt hph h hh
    obtain ⟨l2, hsplitD, hnf, hfilter⟩ :=
      deliverHooks_structure hr Phase.OnDestroy b1 hnd pt hpt hph
    rw [List.count_append, List.count_append]
    have hcC : evC.count (Ev.hookStart Phase.OnDestroy h true
        (some Phase.OnDestroy)) = 0 :=
      count_hookStart_of_all_flush evC (completeGo_all_flush _ _) _ _ _ _
    have hc1 : ([Ev.completed] : List Ev).count (Ev.hookStart Phase.OnDestroy h true
        (some Phase.OnDestroy)) = 0 := rfl
    rw [hcC, hc1]
    rw [show evD = (bucketAt b1 Phase.OnDestroy).map (Ev.flushT Phase.OnDestroy) ++ l2
      from hsplitD]
    rw [List.count_append, count_hookStart_map_flush]
    have hl2 : l2.count (Ev.hookStart Phase.OnDestroy h true (some Phase.OnDestroy)) =
        (l2.filter isHookBoundary).count (Ev.hookStart Phase.OnDestroy h true
          (some Phase.OnDestroy)) :=
      (List.count_filter (by rfl)).symm
    rw [hl2, hfilter, hookBoundary_count]
    have hhnd := (hw2 pt hpt).1
    have hle := List.nodup_iff_count_le_one.mp hhnd h
    have hpos := List.count_pos_iff.mpr hh
    omega
  · intro t ht
    rw [hcount t]
    have h1 : (busTeardowns b1).count t = 1 := by
      have hle := List.nodup_iff_count_le_one.mp hndT t
      have hpos := List.count_pos_iff.mpr ht
      omega
    have h2 : (addedIds (evD ++ evC)).count t = 0 := by
      rw [List.count_eq_zero]
      intro hmem
      rw [hDC.2.2.1] at hmem
      have := (List.mem_range'_1.mp hmem).1
      have := hltT t ht
      omega
    omega
  · intro t ht
    rw [haddEq] at ht
    rw [hcount t]
    have h1 : (busTeardowns b1).count t = 0 := by
      rw [List.count_eq_zero]
      intro hmem
      have hlt := hltT t hmem
      rw [hDC.2.2.1] at ht
      have := (List.mem_range'_1.mp ht).1
      omega
    have h2 : (addedIds (evD ++ evC)).count t = 1 := by
      have hnodup : (addedIds (evD ++ evC)).Nodup := by
        rw [hDC.2.2.1]
        exact List.nodup_range' _ _
      have hle := List.nodup_iff_count_le_one.mp hnodup t
      have hpos := List.count_pos_iff.mpr ht
      omega
    omega

/-- C5: processing the Destroy trigger on a live, well-formed bus runs every
OnDestroy hook exactly once (in the ambient context of this host and the
destroy phase); by the time destroy processing completes it has released
every artifact held in every phase's cleanup bucket — not only Destroy's
own — exactly once, along with every artifact created during the destroy
hooks themselves; and it terminates the bus: the subject is completed, every
hook bucket is already flushed (empty), and any further trigger leaves the
state untouched and emits nothing. -/
theorem destroy_terminal_semantics (hr : Nat → List Nat) (b : Bus)
    (hwf : wfBus b) (hcl : b.closed = false) :
    (∀ pt ∈ b.parts, pt.phase = Phase.OnDestroy → ∀ h ∈ pt.hooks,
      (step hr Trig.destroy b).2.count
        (Ev.hookStart Phase.OnDestroy h true (some Phase.OnDestroy)) = 1) ∧
      (∀ t ∈ busTeardowns b,
        (releasedIds (step hr Trig.destroy b).2).count t = 1) ∧
      (∀ t ∈ addedIds (step hr Trig.destroy b).2,
        (releasedIds (step hr Trig.destroy b).2).count t = 1) ∧
      (step hr Trig.destroy b).1.closed = true ∧
      (∀ pt ∈ (step hr Trig.destroy b).1.parts, pt.bucket = []) ∧
      ∀ tg, step hr tg (step hr Trig.destroy b).1 =
        ((step hr Trig.destroy b).1, []) := by
  obtain ⟨hnd, hw2, hndT, hltT, hpend, hact, hlcn⟩ := hwf
  have hstep : step hr Trig.destroy b =
      ({ (completeAll (deliverHooks hr Phase.OnDestroy
            { b with active := true, lc := some Phase.OnDestroy }).1).1 with
          closed := true, active := false, lc := none },
       (deliverHooks hr Phase.OnDestroy
          { b with active := true, lc := some Phase.OnDestroy }).2 ++
        ((completeAll (deliverHooks hr Phase.OnDestroy
            { b with active := true, lc := some Phase.OnDestroy }).1).2 ++
          [Ev.completed])) := by
    show ({ (emit hr false Phase.OnDestroy
          { b with active := true, lc := some Phase.OnDestroy }).1 with
        active := false, lc := none },
      (emit hr false Phase.OnDestroy
          { b with active := true, lc := some Phase.OnDestroy }).2) = _
    rw [emit_not_closed hr false Phase.OnDestroy
      { b with active := true, lc := some Phase.OnDestroy } hcl]
    rw [schedulerStep_onDestroy_eq]
  have hcore := destroy_core hr { b with active := true, lc := some Phase.OnDestroy }
    hnd hw2 hndT hltT
  refine ⟨?_, ?_, ?_, ?_, ?_, ?_⟩
  · intro pt hpt hph h hh
    rw [hstep]
    exact hcore.1 pt hpt hph h hh
  · intro t ht
    rw [hstep]
    exact hcore.2.1 t ht
  · intro t ht
    rw [hstep] at ht
    rw [hstep]
    exact hcore.2.2.1 t ht
  · rw [hstep]
  · intro pt hpt
    rw [hstep] at hpt
    exact hcore.2.2.2 pt hpt
  · intro tg
    rw [hstep]
    rfl

theorem destroy_terminal_semantics_witness :
    wfBus (connectedBus fun _ => [7]) ∧
      (connectedBus fun _ => [7]).closed = false ∧
      (step (fun _ => [3]) Trig.destroy (connectedBus fun _ => [7])).1.closed = true ∧
      ∀ pt ∈ (step (fun _ => [3]) Trig.destroy
          (connectedBus fun _ => [7])).1.parts, pt.bucket = [] :=
  ⟨by unfold wfBus; decide, rfl,
   (destroy_terminal_semantics (fun _ => [3]) (connectedBus fun _ => [7])
      (by unfold wfBus; decide) rfl).2.2.2.1,
   (destroy_terminal_semantics (fun _ => [3]) (connectedBus fun _ => [7])
      (by unfold wfBus; decide) rfl).2.2.2.2.1⟩

end Sched

/-- C9 counterexample: an effect registered while host 1 is the ambient
context is consumed by host 2's effects run — host 2's cleanup bucket
receives its teardown and the global queue empties — contradicting the
exclusive-ownership claim. -/
theorem effect_registered_under_A_consumed_by_B :
    runEffects (fun _ => .func 99) (fun _ => []) 2
        (addEffect 7 ⟨false⟩
          ⟨some 1, none, [], [], [], [], [(1, []), (2, [])], []⟩).1 =
      ⟨some 1, none, [], [], [], [], [(1, []), (2, [.func 99])], [(7, [])]⟩ := by
  decide

end NgEffects
